import Mathlib

/-!
# Verification of the btrfs-clone replication planner

A shallow embedding of `btrfs-clone.py` (the subvolume model, the
ancestor walk over the UUID graph, the four planning strategies of the
replication planner, the subvolume enumeration, and the staging-area
move pass), together with theorems checking the natural-language
specification against it.

Python machine integers are modelled as `Int` (they are unbounded in
Python), paths and UUIDs as `String`.  Python's stable `list.sort` is
modelled by a stable insertion sort (`sortBy`), which agrees with any
stable sort for a total preorder comparator.  The lazy ancestor
generator is modelled with explicit fuel; fuel sufficiency under the
planner's acyclicity invariant is proved below.
-/

namespace BtrfsClone

/-- The subvolume model: the fields `Subvol.__init__`/`_init_from_show`
parse from `btrfs subvolume show`. `parent_uuid` is `none` when the
show output prints `-`. -/
structure Subvol where
  path : String
  uuid : String
  parent_uuid : Option String
  id : Int
  parent_id : Int
  gen : Int
  ogen : Int
  ro : Bool
deriving DecidableEq, Repr

/-- `Subvol.MAX_STATIC`: max diff between "generation" and "generation of
origin" which is considered "static" (aka read-only snapshot). -/
def maxStatic : Int := 1

/-- `Subvol.is_static`: `gen - ogen <= MAX_STATIC`. -/
def Subvol.is_static (s : Subvol) : Bool := s.gen - s.ogen ≤ maxStatic

/-! ## Stable sorting (Python `list.sort(key=...)`)

Python's `list.sort` is stable.  `sortBy le` is a stable insertion sort:
for a total preorder `le` it produces the unique stable `le`-sorted
permutation, hence agrees with the source's sort. `reverse=True` sorts
are modelled by the flipped comparator, which is also exactly stable
descending order. -/

def insort (le : α → α → Bool) (x : α) : List α → List α
  | [] => [x]
  | y :: ys => if le x y then x :: y :: ys else y :: insort le x ys

def sortBy (le : α → α → Bool) : List α → List α
  | [] => []
  | x :: xs => insort le x (sortBy le xs)

/-- ascending `(ogen, id)` (used by the parent strategy and the
chronological children order). -/
def ogenIdLe (a b : Subvol) : Bool := a.ogen < b.ogen || (a.ogen == b.ogen && a.id ≤ b.id)

/-- descending `(ogen, id)` (snapshot strategy children order,
i.e. `sort(reverse=True, key=(ogen, id))`). -/
def ogenIdGe (a b : Subvol) : Bool := ogenIdLe b a

/-- ascending `(gen, id)` (generation strategy send order). -/
def genIdLe (a b : Subvol) : Bool := a.gen < b.gen || (a.gen == b.gen && a.id ≤ b.id)

/-- descending `(gen, id)` (the `done` list ordering in
`select_best_ancestor`). -/
def genIdGe (a b : Subvol) : Bool := genIdLe b a

/-- ascending `(parent_id, id)` (the staging-area exit pass order). -/
def pidIdLe (a b : Subvol) : Bool :=
  a.parent_id < b.parent_id || (a.parent_id == b.parent_id && a.id ≤ b.id)

/-! ## The graph indexer: `parents_getter` -/

/-- The UUID lookup `{x.uuid: x for x in subvols}` built by
`parents_getter`; a Python dict comprehension keeps the last entry for a
duplicated key, hence `find?` on the reversed list. -/
def mkLookup (svs : List Subvol) (u : String) : Option Subvol :=
  svs.reverse.find? (fun s => s.uuid == u)

/-- The ancestor generator returned by `parents_getter`: follow
`parent_uuid` through the lookup, stopping when `parent_uuid` is `None`
or the uuid is not a key (`KeyError`).  The source's generator carries
no fuel; the `fuel` argument makes the walk structurally total, and
`parents_chain_stable` below proves any fuel `≥ svs.length` yields the
full walk under the planner's acyclicity invariant. -/
def parentsChain (lookup : String → Option Subvol) : Nat → Subvol → List Subvol
  | 0, _ => []
  | fuel+1, x =>
    match x.parent_uuid with
    | none => []
    | some u =>
      match lookup u with
      | none => []
      | some p => p :: parentsChain lookup fuel p

/-! ## The planner's output -/

/-- One `btrfs send` emitted by a strategy: the subvolume sent, the `-p`
parent flag (if any) and the `-c` clone-source flags. -/
structure Send where
  sv : Subvol
  parent : Option Subvol
  clones : List Subvol
deriving DecidableEq, Repr

inductive Strategy
  | parent | snapshot | chronological | generation
deriving DecidableEq, Repr

/-! ## `parent` strategy -/

/-- `send_subvol_parent`: the full ancestor chain gives the `-c` flags,
its first element (if any) the `-p` flag. -/
def send_subvol_parent (lookup : String → Option Subvol) (fuel : Nat) (sv : Subvol) : Send :=
  let ancestors := parentsChain lookup fuel sv
  { sv := sv, parent := ancestors.head?, clones := ancestors }

/-- `send_subvols_parent`: sort ascending `(ogen, id)` and send each
subvolume with its ancestor chain. -/
def send_subvols_parent (svs : List Subvol) : List Send :=
  let sorted := sortBy ogenIdLe svs
  sorted.map (send_subvol_parent (mkLookup sorted) sorted.length)

/-! ## `snapshot` and `chronological` strategies -/

/-- The child loop of `send_subvol_snap`: each child is sent with the
previously sent node on the branch as parent (`prev` starts as the node
itself and becomes the previous sibling). -/
def snapKids (f : Subvol → Subvol → List Send) : List Subvol → Subvol → List Send
  | [], _ => []
  | snap :: rest, prev => f snap prev ++ snapKids f rest snap

/-- `send_subvol_snap`: send the node (with `-p prev -c prev` when a
parent was passed), then recurse into the children, sorted descending
`(ogen, id)`. -/
def send_subvol_snap (svs : List Subvol) : Nat → Subvol → Option Subvol → List Send
  | 0, _, _ => []
  | fuel+1, sv, parent =>
    { sv := sv, parent := parent, clones := parent.toList } ::
      snapKids (fun snap prev => send_subvol_snap svs fuel snap (some prev))
        (sortBy ogenIdGe (svs.filter (fun x => x.parent_uuid == some sv.uuid))) sv

/-- The child loop of `send_subvol_chrono`: children first, threading
`prev` (initially `None`, then the previous sibling). -/
def chronoKids (f : Subvol → Option Subvol → List Send) : List Subvol → Option Subvol → List Send
  | [], _ => []
  | snap :: rest, prev => f snap prev ++ chronoKids f rest (some snap)

/-- `send_subvol_chrono`: recurse into children (ascending `(ogen, id)`)
first, then send the node itself.  When no parent was passed the last
sent child is adopted as parent (and `prev` is cleared); the flags are
`-p parent -c parent` plus `-c prev`. -/
def send_subvol_chrono (svs : List Subvol) : Nat → Subvol → Option Subvol → List Send
  | 0, _, _ => []
  | fuel+1, sv, parent =>
    let snaps := sortBy ogenIdLe (svs.filter (fun x => x.parent_uuid == some sv.uuid))
    let kids := chronoKids (fun snap prev => send_subvol_chrono svs fuel snap prev) snaps none
    let pp : Option Subvol × Option Subvol :=
      match parent with
      | none => (snaps.getLast?, none)
      | some p => (some p, snaps.getLast?)
    kids ++ [{ sv := sv, parent := pp.1, clones := pp.1.toList ++ pp.2.toList }]

/-- The root filter of `send_subvols_snap`.  In the source the test is
`x.parent_uuid is None or lookup(x.parent_uuid) is None`, where `lookup`
is the generator function returned by `parents_getter`; calling it
returns a generator object, which is never `None`, so the second
disjunct is always false and only subvolumes without a `parent_uuid`
pass the filter. -/
def rootFilter (x : Subvol) : Bool :=
  match x.parent_uuid with
  | none => true
  | some _ => false

/-- `send_subvols_snap`: run the recursive snapshot or chronological
traversal from every root.  The recursion depth is bounded by
`svs.length`, so fuel `svs.length + 1` never runs out under the
planner's acyclicity invariant (proved in the soundness lemmas). -/
def send_subvols_snap (strategy : Strategy) (svs : List Subvol) : List Send :=
  (svs.filter rootFilter).flatMap (fun sv =>
    match strategy with
    | .snapshot => send_subvol_snap svs (svs.length + 1) sv none
    | .chronological => send_subvol_chrono svs (svs.length + 1) sv none
    | _ => [])

/-! ## `generation` strategy -/

/-- `get_first`: first element of the list satisfying `fn`, else `None`. -/
def getFirst (lst : List α) (fn : α → Bool) : Option α :=
  lst.foldr (fun y acc => if fn y then some y else acc) none

/-- `get_max`: Python `max(filter(sel, lst), key)` returning `None` on an
empty selection; Python's `max` keeps the first of several maximal
elements, hence the strict comparison when replacing. -/
def getMax [LT β] [DecidableRel (α := β) (· < ·)] (lst : List α) (sel : α → Bool) (key : α → β) : Option α :=
  (lst.filter sel).foldl
    (fun acc y =>
      match acc with
      | none => some y
      | some m => if key m < key y then some y else acc) none

/-- `get_min`: Python `min(filter(sel, lst), key)`, `None` on empty;
Python's `min` keeps the first of several minimal elements. -/
def getMin [LT β] [DecidableRel (α := β) (· < ·)] (lst : List α) (sel : α → Bool) (key : α → β) : Option α :=
  (lst.filter sel).foldl
    (fun acc y =>
      match acc with
      | none => some y
      | some m => if key y < key m then some y else acc) none

/-- Adding an optional entry to the clone-source set.  The source keeps
a Python `set` (so adds deduplicate) and `selection` drops a `None`
entry before returning; dropping `none` at insertion time yields the
same returned set. -/
def csAdd (cs : List Subvol) : Option Subvol → List Subvol
  | none => cs
  | some s => if s ∈ cs then cs else cs ++ [s]

/-- `clone_sources.update(l)`. -/
def csUpdate (cs : List Subvol) (l : List Subvol) : List Subvol :=
  l.foldl (fun acc y => csAdd acc (some y)) cs

/-- The local `selection(best, reason)` helper: add `best` to the
clone-source set (dropping `None`) and return the pair. -/
def selection (cs : List Subvol) (best : Option Subvol) : Option Subvol × List Subvol :=
  (best, csAdd cs best)

/-- The final "nicest relative" step of `select_best_ancestor`: from the
non-`None` candidates pick the one with minimal `|ogen - sv.ogen|`
(`selection(..., "nicest relative")`), or `None` (`"no nice
relatives"`).  Python iterates a `set` here in hash order; the model
uses insertion order, which fixes only which of several equally-near
candidates is picked. -/
def sbaNicest (sv : Subvol) (cs : List Subvol) (candidates : List Subvol) : Option Subvol × List Subvol :=
  match getMin candidates (fun _ => true) (fun x => ((x.ogen - sv.ogen).natAbs : Int)) with
  | some b => selection cs (some b)
  | none => selection cs none

/-- The tail of the cascade: a static ancestor is chosen as best
(`"static ancestor"`), else fall through to the nicest relative. -/
def sbaStaticAnc (sv : Subvol) (cs3 candidates : List Subvol) :
    Option Subvol → Option Subvol × List Subvol
  | some anc =>
    if anc.is_static then selection cs3 (some anc) else sbaNicest sv cs3 candidates
  | none => sbaNicest sv cs3 candidates

/-- The priority cascade over the six sibling candidates plus the
ancestor (static brother → static sister → youngest brother → static
ancestor → nicest relative by `|ogen - sv.ogen|` → no nice relatives);
`cs3` adds every candidate to the clone-source set, duplicates and
`None` dropped as in the source's set. -/
def sbaCascadeCore (sv : Subvol) (cs2 : List Subvol) (ancestor : Option Subvol)
    (youngest_static_brother youngest_brother youngest_brother_ogen
     oldest_static_sister oldest_sister oldest_sister_gen : Option Subvol) :
    Option Subvol × List Subvol :=
  let cs3 := csAdd (csAdd (csAdd (csAdd (csAdd (csAdd cs2
    youngest_static_brother) youngest_brother) youngest_brother_ogen)
    oldest_static_sister) oldest_sister) oldest_sister_gen
  let candidates := csAdd (csAdd (csAdd (csAdd []
    ancestor) youngest_brother_ogen) oldest_sister) oldest_sister_gen
  match youngest_static_brother with
  | some b => selection cs3 (some b)
  | none =>
  match oldest_static_sister with
  | some d => selection cs3 (some d)
  | none =>
  match youngest_brother with
  | some b => selection cs3 (some b)
  | none => sbaStaticAnc sv cs3 candidates ancestor

/-- The brothers/sisters cascade of `select_best_ancestor` (reached when
`done` holds siblings of `sv`): brothers have `ogen < sv.ogen`, sisters
`ogen ≥ sv.ogen`; the six candidates are computed as in the source
("node a", "node b", "node d", "node c" of its tree comment). -/
def sbaCascade (sv : Subvol) (cs2 : List Subvol) (ancestor : Option Subvol) (siblings : List Subvol) : Option Subvol × List Subvol :=
  let brothers := siblings.filter (fun x => x.ogen < sv.ogen)
  let sisters := siblings.filter (fun x => sv.ogen ≤ x.ogen)
  sbaCascadeCore sv cs2 ancestor
    (getMax brothers (fun x => x.is_static) (fun x => x.ogen))
    (getMax brothers (fun x => decide (x.gen < sv.ogen)) (fun x => x.ogen))
    (getMax brothers (fun _ => true) (fun x => x.ogen))
    (getMin sisters (fun x => x.is_static) (fun x => x.ogen))
    (getMin sisters (fun _ => true) (fun x => x.ogen))
    (getMin sisters (fun _ => true) (fun x => x.gen))

/-- The sibling stage of `select_best_ancestor`: with no cloned siblings
return the ancestor (`"ancestor"`) or nothing (`"orphan"`), else run the
cascade. -/
def sbaSiblings (sv : Subvol) (cs2 : List Subvol) (ancestor : Option Subvol) (siblings : List Subvol) : Option Subvol × List Subvol :=
  if siblings.isEmpty then
    match ancestor with
    | some anc => selection cs2 (some anc)
    | none => selection cs2 none
  else sbaCascade sv cs2 ancestor siblings

/-- After `mom` is known: add `ancestor` (the done ancestor of maximal
`ogen`, "node G" in the source's tree comment) to the clone sources;
when it is `mom` itself return `selection(mom, "mom")`, else continue
with the siblings (done nodes sharing `mom`). -/
def sbaMom (sv : Subvol) (done : List Subvol) (cs1 : List Subvol) (mom : Subvol) (ancestor : Option Subvol) : Option Subvol × List Subvol :=
  let cs2 := csAdd cs1 ancestor
  if ancestor = some mom then selection cs2 (some mom)
  else sbaSiblings sv cs2 ancestor (done.filter (fun x => x.parent_uuid == some mom.uuid))

/-- The ancestor stage of `select_best_ancestor`: `mom` is the first
ancestor; `ancestor` is the element of `ancestors` that is in `done`
with maximal `ogen`. -/
def sbaAncestors (sv : Subvol) (done : List Subvol) (cs1 : List Subvol) (ancestors : List Subvol) : Option Subvol × List Subvol :=
  match ancestors with
  | [] => selection cs1 none
  | mom :: _ =>
    sbaMom sv done cs1 mom (getMax ancestors (fun x => decide (x ∈ done)) (fun x => x.ogen))

/-- `select_best_ancestor(sv, get_ancestors, done)`.  `done` is first
(re-)sorted descending `(gen, id)`.  If a static child is found in
`done` it is returned at once: the source at that point computes
`[x for x in children if x.ogen > best_static_child.ogen]` and passes it
to `clone_sources.union(...)`, but `set.union` returns a new set and the
result is discarded, so those children never reach the clone-source set
and the set returned with the static child holds only the child itself.
Non-static children are added (`clone_sources.update`) but never chosen
as best.  (`getFirst` on the empty children list is `none`, matching the
source's fall-through when `children` is empty.) -/
def select_best_ancestor (get_ancestors : Subvol → List Subvol) (sv : Subvol) (done0 : List Subvol) : Option Subvol × List Subvol :=
  let done := sortBy genIdGe done0
  let children := done.filter (fun s => s.parent_uuid == some sv.uuid)
  match getFirst children (fun x => x.is_static) with
  | some b => selection [] (some b)
  | none => sbaAncestors sv done (csUpdate [] children) (get_ancestors sv)

/-- `send_subvol_gen`: `-c` flags from the clone-source set, `-p` from
the best, then send. -/
def send_subvol_gen (get_ancestors : Subvol → List Subvol) (sv : Subvol) (done : List Subvol) : Send :=
  let bc := select_best_ancestor get_ancestors sv done
  { sv := sv, parent := bc.1, clones := bc.2 }

/-- The loop of `send_subvols_gen`: after each send the subvolume is
prepended to `done`. -/
def genGo (get_ancestors : Subvol → List Subvol) (done : List Subvol) : List Subvol → List Send
  | [] => []
  | sv :: rest => send_subvol_gen get_ancestors sv done :: genGo get_ancestors (sv :: done) rest

/-- `send_subvols_gen`: sort ascending `(gen, id)` and run the loop with
an initially empty `done`. -/
def send_subvols_gen (svs : List Subvol) : List Send :=
  let sorted := sortBy genIdLe svs
  genGo (fun sv => parentsChain (mkLookup sorted) sorted.length sv) [] sorted

/-- The strategy dispatch of `send_subvols`. -/
def plan : Strategy → List Subvol → List Send
  | .parent, svs => send_subvols_parent svs
  | .snapshot, svs => send_subvols_snap .snapshot svs
  | .chronological, svs => send_subvols_snap .chronological svs
  | .generation, svs => send_subvols_gen svs

/-! ## Planner invariants used as preconditions -/

/-- The spec's lineage invariant: a snapshot's `ogen` is strictly
greater than its origin's `ogen` (for origins inside the working set).
This is the acyclicity precondition of the claims. -/
def OgenMono (svs : List Subvol) : Prop :=
  ∀ s ∈ svs, ∀ p ∈ svs, s.parent_uuid = some p.uuid → p.ogen < s.ogen

instance : DecidablePred OgenMono := fun svs =>
  inferInstanceAs (Decidable (∀ s ∈ svs, ∀ p ∈ svs, _ → _))

/-- The data-model invariant "uuid is unique across the working set". -/
def UuidNodup (svs : List Subvol) : Prop := (svs.map Subvol.uuid).Nodup

instance : DecidablePred UuidNodup := fun svs =>
  inferInstanceAs (Decidable ((svs.map Subvol.uuid).Nodup))

/-! ## Library lemmas about the sorting and selection helpers -/

theorem insort_perm (le : α → α → Bool) (x : α) (l : List α) :
    List.Perm (insort le x l) (x :: l) := by
  induction l with
  | nil => simp [insort]
  | cons y ys ih =>
    simp only [insort]
    split
    · exact List.Perm.refl _
    · exact (ih.cons y).trans (List.Perm.swap x y ys)

theorem sortBy_perm (le : α → α → Bool) (l : List α) : List.Perm (sortBy le l) l := by
  induction l with
  | nil => exact List.Perm.refl _
  | cons x xs ih => exact (insort_perm le x (sortBy le xs)).trans (ih.cons x)

theorem mem_sortBy (le : α → α → Bool) (l : List α) (a : α) :
    a ∈ sortBy le l ↔ a ∈ l := (sortBy_perm le l).mem_iff

theorem insort_pairwise (le : α → α → Bool)
    (htr : ∀ a b c, le a b = true → le b c = true → le a c = true)
    (hto : ∀ a b, le a b = true ∨ le b a = true)
    (x : α) (l : List α) (h : l.Pairwise (fun a b => le a b = true)) :
    (insort le x l).Pairwise (fun a b => le a b = true) := by
  induction l with
  | nil => simp [insort]
  | cons y ys ih =>
    rw [List.pairwise_cons] at h
    obtain ⟨hy, hys⟩ := h
    simp only [insort]
    split
    · rename_i hxy
      rw [List.pairwise_cons]
      refine ⟨?_, List.pairwise_cons.mpr ⟨hy, hys⟩⟩
      intro z hz
      rcases List.mem_cons.mp hz with rfl | hz
      · exact hxy
      · exact htr x y z hxy (hy z hz)
    · rename_i hxy
      rw [List.pairwise_cons]
      refine ⟨?_, ih hys⟩
      intro z hz
      rcases List.mem_cons.mp ((insort_perm le x ys).mem_iff.mp hz) with rfl | hz
      · rcases hto y z with h | h
        · exact h
        · exact absurd h hxy
      · exact hy z hz

theorem sortBy_pairwise (le : α → α → Bool)
    (htr : ∀ a b c, le a b = true → le b c = true → le a c = true)
    (hto : ∀ a b, le a b = true ∨ le b a = true)
    (l : List α) : (sortBy le l).Pairwise (fun a b => le a b = true) := by
  induction l with
  | nil => simp [sortBy]
  | cons x xs ih => exact insort_pairwise le htr hto x (sortBy le xs) ih

theorem lexLe_trans (k j : α → Int) (a b c : α)
    (h1 : (k a < k b || (k a == k b && j a ≤ j b)) = true)
    (h2 : (k b < k c || (k b == k c && j b ≤ j c)) = true) :
    (k a < k c || (k a == k c && j a ≤ j c)) = true := by
  simp only [Bool.or_eq_true, Bool.and_eq_true, decide_eq_true_eq, beq_iff_eq] at *
  omega

theorem lexLe_total (k j : α → Int) (a b : α) :
    (k a < k b || (k a == k b && j a ≤ j b)) = true ∨
    (k b < k a || (k b == k a && j b ≤ j a)) = true := by
  simp only [Bool.or_eq_true, Bool.and_eq_true, decide_eq_true_eq, beq_iff_eq]
  omega

theorem lexLe_key_le (k j : α → Int) (a b : α)
    (h : (k a < k b || (k a == k b && j a ≤ j b)) = true) : k a ≤ k b := by
  simp only [Bool.or_eq_true, Bool.and_eq_true, decide_eq_true_eq, beq_iff_eq] at h
  omega

theorem ogenIdLe_trans : ∀ a b c, ogenIdLe a b = true → ogenIdLe b c = true → ogenIdLe a c = true :=
  fun a b c => lexLe_trans (Subvol.ogen) (Subvol.id) a b c

theorem ogenIdLe_total : ∀ a b, ogenIdLe a b = true ∨ ogenIdLe b a = true :=
  fun a b => lexLe_total (Subvol.ogen) (Subvol.id) a b

theorem ogenIdLe_ogen_le (a b : Subvol) (h : ogenIdLe a b = true) : a.ogen ≤ b.ogen :=
  lexLe_key_le (Subvol.ogen) (Subvol.id) a b h

theorem genIdLe_trans : ∀ a b c, genIdLe a b = true → genIdLe b c = true → genIdLe a c = true :=
  fun a b c => lexLe_trans (Subvol.gen) (Subvol.id) a b c

theorem genIdLe_total : ∀ a b, genIdLe a b = true ∨ genIdLe b a = true :=
  fun a b => lexLe_total (Subvol.gen) (Subvol.id) a b

theorem ogenIdGe_trans : ∀ a b c, ogenIdGe a b = true → ogenIdGe b c = true → ogenIdGe a c = true :=
  fun a b c h1 h2 => ogenIdLe_trans c b a h2 h1

theorem ogenIdGe_total : ∀ a b, ogenIdGe a b = true ∨ ogenIdGe b a = true :=
  fun a b => (ogenIdLe_total b a)

theorem genIdGe_trans : ∀ a b c, genIdGe a b = true → genIdGe b c = true → genIdGe a c = true :=
  fun a b c h1 h2 => genIdLe_trans c b a h2 h1

theorem genIdGe_total : ∀ a b, genIdGe a b = true ∨ genIdGe b a = true :=
  fun a b => (genIdLe_total b a)

theorem pidIdLe_trans : ∀ a b c, pidIdLe a b = true → pidIdLe b c = true → pidIdLe a c = true :=
  fun a b c => lexLe_trans (Subvol.parent_id) (Subvol.id) a b c

theorem pidIdLe_total : ∀ a b, pidIdLe a b = true ∨ pidIdLe b a = true :=
  fun a b => lexLe_total (Subvol.parent_id) (Subvol.id) a b

theorem getFirst_cons (y : α) (l : List α) (fn : α → Bool) :
    getFirst (y :: l) fn = if fn y then some y else getFirst l fn := rfl

theorem getFirst_eq_some (lst : List α) (fn : α → Bool) (b : α)
    (h : getFirst lst fn = some b) : b ∈ lst ∧ fn b = true := by
  induction lst with
  | nil => simp [getFirst] at h
  | cons y ys ih =>
    rw [getFirst_cons] at h
    split at h
    · cases h
      exact ⟨List.mem_cons_self _ _, by assumption⟩
    · obtain ⟨hm, hf⟩ := ih h
      exact ⟨List.mem_cons_of_mem _ hm, hf⟩

theorem getFirst_isSome (lst : List α) (fn : α → Bool) (x : α)
    (hx : x ∈ lst) (hfx : fn x = true) : ∃ b, getFirst lst fn = some b := by
  induction lst with
  | nil => cases hx
  | cons y ys ih =>
    rw [getFirst_cons]
    split
    · exact ⟨y, rfl⟩
    · rename_i hy
      rcases List.mem_cons.mp hx with rfl | hx
      · exact absurd hfx hy
      · exact ih hx

theorem getFirst_split (lst : List α) (fn : α → Bool) (b : α)
    (h : getFirst lst fn = some b) :
    ∃ l₁ l₂, lst = l₁ ++ b :: l₂ ∧ ∀ x ∈ l₁, fn x = false := by
  induction lst with
  | nil => simp [getFirst] at h
  | cons y ys ih =>
    rw [getFirst_cons] at h
    split at h
    · cases h
      exact ⟨[], ys, rfl, by simp⟩
    · rename_i hy
      obtain ⟨l₁, l₂, rfl, hl₁⟩ := ih h
      refine ⟨y :: l₁, l₂, rfl, ?_⟩
      intro x hx
      rcases List.mem_cons.mp hx with rfl | hx
      · exact Bool.eq_false_iff.mpr hy
      · exact hl₁ x hx

theorem pickFoldl_mem (f : Option α → α → Option α)
    (hf : ∀ acc y m, f acc y = some m → m = y ∨ acc = some m) :
    ∀ (l : List α) (acc : Option α) (b : α), l.foldl f acc = some b → b ∈ l ∨ acc = some b := by
  intro l
  induction l with
  | nil => intro acc b h; exact Or.inr h
  | cons y ys ih =>
    intro acc b h
    rcases ih (f acc y) b h with hm | hm
    · exact Or.inl (List.mem_cons_of_mem _ hm)
    · rcases hf acc y b hm with rfl | hm
      · exact Or.inl (List.mem_cons_self _ _)
      · exact Or.inr hm

theorem getMax_mem [LT β] [DecidableRel (α := β) (· < ·)] (lst : List α) (sel : α → Bool)
    (key : α → β) (b : α) (h : getMax lst sel key = some b) : b ∈ lst ∧ sel b = true := by
  have hstep : ∀ (acc : Option α) (y m : α),
      (match acc with
        | none => some y
        | some m' => if key m' < key y then some y else acc) = some m → m = y ∨ acc = some m := by
    intro acc y m hm
    match acc with
    | none => cases hm; exact Or.inl rfl
    | some m' =>
      simp only at hm
      split at hm
      · cases hm; exact Or.inl rfl
      · exact Or.inr hm
  rcases pickFoldl_mem _ hstep (lst.filter sel) none b h with hm | hm
  · exact ⟨(List.mem_filter.mp hm).1, (List.mem_filter.mp hm).2⟩
  · cases hm

theorem getMin_mem [LT β] [DecidableRel (α := β) (· < ·)] (lst : List α) (sel : α → Bool)
    (key : α → β) (b : α) (h : getMin lst sel key = some b) : b ∈ lst ∧ sel b = true := by
  have hstep : ∀ (acc : Option α) (y m : α),
      (match acc with
        | none => some y
        | some m' => if key y < key m' then some y else acc) = some m → m = y ∨ acc = some m := by
    intro acc y m hm
    match acc with
    | none => cases hm; exact Or.inl rfl
    | some m' =>
      simp only at hm
      split at hm
      · cases hm; exact Or.inl rfl
      · exact Or.inr hm
  rcases pickFoldl_mem _ hstep (lst.filter sel) none b h with hm | hm
  · exact ⟨(List.mem_filter.mp hm).1, (List.mem_filter.mp hm).2⟩
  · cases hm

theorem mem_csAdd (cs : List Subvol) (o : Option Subvol) (x : Subvol) :
    x ∈ csAdd cs o ↔ x ∈ cs ∨ o = some x := by
  cases o with
  | none => simp [csAdd]
  | some s =>
    simp only [csAdd, Option.some.injEq]
    split
    · rename_i hs
      constructor
      · intro h; exact Or.inl h
      · rintro (h | rfl)
        · exact h
        · exact hs
    · simp only [List.mem_append, List.mem_singleton]
      constructor
      · rintro (h | rfl)
        · exact Or.inl h
        · exact Or.inr rfl
      · rintro (h | rfl)
        · exact Or.inl h
        · exact Or.inr rfl

theorem mem_csUpdate (l : List Subvol) : ∀ (cs : List Subvol) (x : Subvol),
    x ∈ csUpdate cs l ↔ x ∈ cs ∨ x ∈ l := by
  induction l with
  | nil => intro cs x; simp [csUpdate]
  | cons y ys ih =>
    intro cs x
    have : csUpdate cs (y :: ys) = csUpdate (csAdd cs (some y)) ys := rfl
    rw [this, ih, mem_csAdd]
    simp only [Option.some.injEq, List.mem_cons]
    constructor
    · rintro ((h | rfl) | h)
      · exact Or.inl h
      · exact Or.inr (Or.inl rfl)
      · exact Or.inr (Or.inr h)
    · rintro (h | rfl | h)
      · exact Or.inl (Or.inl h)
      · exact Or.inl (Or.inr rfl)
      · exact Or.inr h

theorem mkLookup_eq_some (svs : List Subvol) (u : String) (p : Subvol)
    (h : mkLookup svs u = some p) : p ∈ svs ∧ p.uuid = u := by
  have h1 := List.find?_some h
  have h2 := List.mem_of_find?_eq_some h
  exact ⟨List.mem_reverse.mp h2, by simpa using h1⟩

theorem filter_sublist_mono (l : List α) (p q : α → Bool)
    (h : ∀ a ∈ l, p a = true → q a = true) : List.Sublist (l.filter p) (l.filter q) := by
  induction l with
  | nil => simp
  | cons y ys ih =>
    have ih' := ih (fun a ha => h a (List.mem_cons_of_mem _ ha))
    by_cases hp : p y = true
    · rw [List.filter_cons_of_pos hp, List.filter_cons_of_pos (h y (List.mem_cons_self _ _) hp)]
      exact ih'.cons₂ y
    · rw [List.filter_cons_of_neg (by simpa using hp)]
      by_cases hq : q y = true
      · rw [List.filter_cons_of_pos hq]
        exact ih'.cons y
      · rw [List.filter_cons_of_neg (by simpa using hq)]
        exact ih'

theorem filter_length_lt (l : List α) (p q : α → Bool)
    (hpq : ∀ a ∈ l, p a = true → q a = true) (x : α) (hx : x ∈ l)
    (hqx : q x = true) (hpx : p x = false) :
    (l.filter p).length < (l.filter q).length := by
  induction l with
  | nil => cases hx
  | cons y ys ih =>
    have hsub : List.Sublist (ys.filter p) (ys.filter q) :=
      filter_sublist_mono ys p q (fun a ha => hpq a (List.mem_cons_of_mem _ ha))
    rcases List.mem_cons.mp hx with rfl | hx
    · rw [List.filter_cons_of_neg (by simp [hpx]), List.filter_cons_of_pos hqx]
      exact Nat.lt_succ_of_le hsub.length_le
    · have ihy := ih (fun a ha => hpq a (List.mem_cons_of_mem _ ha)) hx
      by_cases hp : p y = true
      · rw [List.filter_cons_of_pos hp, List.filter_cons_of_pos (hpq y (List.mem_cons_self _ _) hp)]
        simpa using ihy
      · rw [List.filter_cons_of_neg (by simpa using hp)]
        by_cases hq : q y = true
        · rw [List.filter_cons_of_pos hq]
          exact Nat.lt_succ_of_lt ihy
        · rw [List.filter_cons_of_neg (by simpa using hq)]
          exact ihy

/-! ## Concrete scenarios

The spec's S2 star (snapshot strategy): root `R` without `parent_uuid`,
children `X`, `Y`, `Z` with `ogen` 6, 7, 8. -/

def svR : Subvol := ⟨"R", "r", none, 10, 5, 5, 5, true⟩

def svX : Subvol := ⟨"X", "x", some "r", 11, 5, 6, 6, true⟩

def svY : Subvol := ⟨"Y", "y", some "r", 12, 5, 7, 7, true⟩

def svZ : Subvol := ⟨"Z", "z", some "r", 13, 5, 8, 8, true⟩

def s2 : List Subvol := [svR, svX, svY, svZ]

/-- The S4 tree of the comment block in `select_best_ancestor`,
instantiated with concrete generations consistent with the scenario the
spec describes: `M` is a snapshot of `G`, every other subvolume is a
snapshot of `M` except `C`, which is a snapshot of `S`; `a` and `d` are
static; brothers of `S` (ogen < S.ogen) are `e`, `a`; sisters are `b`,
`c`, `d`; `S` is latest by `gen`, everything else is in `done`. -/

def svG : Subvol := ⟨"G", "g", none, 1, 5, 2, 1, false⟩

def svM : Subvol := ⟨"M", "m", some "g", 2, 5, 90, 5, false⟩

def svE : Subvol := ⟨"e", "e", some "m", 3, 5, 39, 10, false⟩

def svA : Subvol := ⟨"a", "a", some "m", 4, 5, 20, 20, true⟩

def svS : Subvol := ⟨"S", "s", some "m", 6, 5, 100, 40, false⟩

def svB : Subvol := ⟨"b", "b", some "m", 5, 5, 50, 45, false⟩

def svC : Subvol := ⟨"c", "c", some "m", 7, 5, 48, 46, false⟩

def svD : Subvol := ⟨"d", "d", some "m", 8, 5, 61, 60, true⟩

def svCC : Subvol := ⟨"C", "cc", some "s", 9, 5, 80, 70, false⟩

def s4all : List Subvol := [svG, svM, svE, svA, svS, svB, svC, svD, svCC]

def s4done : List Subvol := [svG, svM, svE, svA, svB, svC, svD, svCC]

/-- The ancestor getter for the S4 working set, as `send_subvols_gen`
builds it. -/
def s4anc : Subvol → List Subvol := fun sv => parentsChain (mkLookup s4all) s4all.length sv

/-- C1, counterexample.  On the S4 scenario the claim asserts
`best = a` (the youngest static brother) with `a`, `e`, `G` among the
clone sources; the code instead never reaches the sibling cascade:
`get_max(ancestors, in done, key=ogen)` returns `M` (the *nearest* done
ancestor, since a snapshot's ogen exceeds its origin's), `ancestor is
mom` holds, and `selection(mom, "mom")` returns immediately. -/
theorem c1_s4_counterexample :
    OgenMono s4all ∧ svS ∈ s4all ∧ (∀ v ∈ s4done, v.gen < svS.gen) ∧
    svA.is_static = true ∧ svA.ogen < svS.ogen ∧
    (∀ x ∈ s4done, x.parent_uuid = some svM.uuid → x.ogen < svS.ogen →
      x.is_static = true → x.ogen ≤ svA.ogen) ∧
    (select_best_ancestor s4anc svS s4done).1 ≠ some svA ∧
    svA ∉ (select_best_ancestor s4anc svS s4done).2 ∧
    svE ∉ (select_best_ancestor s4anc svS s4done).2 ∧
    svG ∉ (select_best_ancestor s4anc svS s4done).2 := by decide

/-- C1, amended.  On the S4 scenario `mom = M` (the first ancestor), but
the element of `ancestors` in `done` with maximal `ogen` is `M` itself
(not `G`), so the planner returns `best = M` with reason `"mom"` and the
emitted clone-source set is exactly `{C, M}`. -/
theorem c1_s4_amended :
    s4anc svS = [svM, svG] ∧
    getMax (s4anc svS) (fun x => decide (x ∈ sortBy genIdGe s4done)) (fun x => x.ogen)
      = some svM ∧
    select_best_ancestor s4anc svS s4done = (some svM, [svCC, svM]) := by decide

/-- C2 working set: `A` is a root; `B`'s snapshot origin `"q"` is not in
the working set. -/

def svA2 : Subvol := ⟨"A", "a2", none, 1, 5, 1, 1, true⟩

def svB2 : Subvol := ⟨"B", "b2", some "q", 2, 5, 2, 2, true⟩

def c2svs : List Subvol := [svA2, svB2]

/-- The spec's notion of a traversal root.  Modelled from the spec: "A
root here is any subvolume whose `parent_uuid` is absent or whose
snapshot origin is not in the working set." -/
def specRoot (svs : List Subvol) (x : Subvol) : Prop :=
  x.parent_uuid = none ∨ ∀ p ∈ svs, some p.uuid ≠ x.parent_uuid

instance (svs : List Subvol) (x : Subvol) : Decidable (specRoot svs x) := by
  unfold specRoot; infer_instance

/-- C2, failing input.  `B`'s origin lies outside the working set, so
the spec makes it a traversal root and hence sent; but in the source
`lookup = parents_getter(subvols)` is a generator *function*, so
`lookup(x.parent_uuid)` is a generator object and is never `None` —
the root filter degenerates to `parent_uuid is None` and `B` is never
sent by either the snapshot or the chronological strategy. -/
theorem c2_dangling_origin_never_sent :
    specRoot c2svs svB2 ∧ svB2 ∈ c2svs ∧
    plan .snapshot c2svs = [⟨svA2, none, []⟩] ∧
    plan .chronological c2svs = [⟨svA2, none, []⟩] ∧
    (∀ s ∈ plan .snapshot c2svs, s.sv ≠ svB2) ∧
    (∀ s ∈ plan .chronological c2svs, s.sv ≠ svB2) := by decide

/-- C3 counterexample set: children `k1`, `k2` static, `k3` not;
`k1` is the *oldest* static child (least ogen and gen), `k3` has
`ogen` greater than every static child. -/

def svP3 : Subvol := ⟨"P", "p", none, 1, 5, 100, 5, false⟩

def svK1 : Subvol := ⟨"k1", "u1", some "p", 11, 5, 10, 10, true⟩

def svK2 : Subvol := ⟨"k2", "u2", some "p", 12, 5, 21, 20, true⟩

def svK3 : Subvol := ⟨"k3", "u3", some "p", 13, 5, 50, 30, false⟩

def done3 : List Subvol := [svK1, svK2, svK3]

/-- C3, counterexample.  `done` holds children of `sv` with static ones
present; the claim says best = the *oldest* static child (`k1`) and that
each child with `ogen > best.ogen` joins the clone-source set (`k3`,
and `k2` if `k1` were chosen).  The code returns `k2` — the static child
occurring first in `done`'s descending `(gen, id)` order — and the
clone-source set is just `[k2]`: the children with larger `ogen` are
passed to `set.union`, whose result the source discards. -/
theorem c3_counterexample :
    svK1.is_static = true ∧ svK1.parent_uuid = some svP3.uuid ∧ svK1 ∈ done3 ∧
    svK1.ogen < svK2.ogen ∧ svK1.gen < svK2.gen ∧
    svK3.parent_uuid = some svP3.uuid ∧ svK3 ∈ done3 ∧ svK2.ogen < svK3.ogen ∧
    (select_best_ancestor (fun _ => []) svP3 done3).1 = some svK2 ∧
    (select_best_ancestor (fun _ => []) svP3 done3).2 = [svK2] ∧
    svK3 ∉ (select_best_ancestor (fun _ => []) svP3 done3).2 := by decide

/-- C6.  On the S2 star the snapshot strategy emits `R, Z, Y, X`
(children in descending `(ogen, id)`), with `R` sent bare and each
subsequent node sent with the previously sent node as `-p` parent and
sole `-c` clone source. -/
theorem c6_s2_star :
    plan .snapshot s2 =
      [⟨svR, none, []⟩, ⟨svZ, some svR, [svR]⟩,
       ⟨svY, some svZ, [svZ]⟩, ⟨svX, some svY, [svY]⟩] := by decide

/-! ## C7: the ancestor walk -/

theorem parentsChain_succ_root (lookup : String → Option Subvol) (fuel : Nat) (x : Subvol)
    (h : x.parent_uuid = none) : parentsChain lookup (fuel+1) x = [] := by
  simp [parentsChain, h]

theorem parentsChain_succ_out (lookup : String → Option Subvol) (fuel : Nat) (x : Subvol)
    (u : String) (h : x.parent_uuid = some u) (h2 : lookup u = none) :
    parentsChain lookup (fuel+1) x = [] := by
  simp [parentsChain, h, h2]

theorem parentsChain_succ_step (lookup : String → Option Subvol) (fuel : Nat) (x : Subvol)
    (u : String) (p : Subvol) (h : x.parent_uuid = some u) (h2 : lookup u = some p) :
    parentsChain lookup (fuel+1) x = p :: parentsChain lookup fuel p := by
  simp [parentsChain, h, h2]

/-- One step of the walk under the acyclicity invariant: the looked-up
origin is in the working set with strictly smaller `ogen`. -/
theorem lookup_step (svs : List Subvol) (H : OgenMono svs) (x : Subvol) (hx : x ∈ svs)
    (u : String) (hu : x.parent_uuid = some u) (p : Subvol) (hp : mkLookup svs u = some p) :
    p ∈ svs ∧ p.ogen < x.ogen := by
  obtain ⟨hmem, huuid⟩ := mkLookup_eq_some svs u p hp
  exact ⟨hmem, H x hx p hmem (by rw [hu, huuid])⟩

/-- Number of working-set members with `ogen` below `x`'s: the walk's
termination measure. -/
def chainBound (svs : List Subvol) (x : Subvol) : Nat :=
  (svs.filter (fun s => decide (s.ogen < x.ogen))).length

theorem chainBound_lt (svs : List Subvol) (x p : Subvol) (hp : p ∈ svs)
    (hlt : p.ogen < x.ogen) : chainBound svs p < chainBound svs x := by
  refine filter_length_lt svs _ _ ?_ p hp (by simp [hlt]) (by simp)
  intro a _ ha
  simp only [decide_eq_true_eq] at *
  omega

theorem chainBound_lt_length (svs : List Subvol) (x : Subvol) (hx : x ∈ svs) :
    chainBound svs x < svs.length := by
  have h := filter_length_lt svs (fun s => decide (s.ogen < x.ogen)) (fun _ => true)
    (fun a _ _ => rfl) x hx rfl (by simp)
  simpa using h

/-- Members of the walk are working-set members with strictly smaller
`ogen` (any fuel). -/
theorem parentsChain_mem_lt (svs : List Subvol) (H : OgenMono svs) :
    ∀ (f : Nat) (x : Subvol), x ∈ svs →
      ∀ p ∈ parentsChain (mkLookup svs) f x, p ∈ svs ∧ p.ogen < x.ogen := by
  intro f
  induction f with
  | zero => intro x _ p hp; simp [parentsChain] at hp
  | succ f ih =>
    intro x hx p hp
    cases hu : x.parent_uuid with
    | none => rw [parentsChain_succ_root _ _ _ hu] at hp; cases hp
    | some u =>
      cases hq : mkLookup svs u with
      | none => rw [parentsChain_succ_out _ _ _ _ hu hq] at hp; cases hp
      | some q =>
        rw [parentsChain_succ_step _ _ _ _ _ hu hq] at hp
        obtain ⟨hqm, hqlt⟩ := lookup_step svs H x hx u hu q hq
        rcases List.mem_cons.mp hp with rfl | hp
        · exact ⟨hqm, hqlt⟩
        · obtain ⟨hm, hlt⟩ := ih q hqm p hp
          exact ⟨hm, lt_trans hlt hqlt⟩

/-- Fuel stability: any two fuels above the measure produce the same
walk. -/
theorem parentsChain_stable_aux (svs : List Subvol) (H : OgenMono svs) :
    ∀ (k : Nat) (x : Subvol), x ∈ svs → chainBound svs x < k →
      ∀ f₁ f₂, k ≤ f₁ → k ≤ f₂ →
        parentsChain (mkLookup svs) f₁ x = parentsChain (mkLookup svs) f₂ x := by
  intro k
  induction k with
  | zero => intro x _ h; omega
  | succ k ih =>
    intro x hx hb f₁ f₂ h1 h2
    obtain ⟨g₁, rfl⟩ : ∃ g, f₁ = g + 1 := ⟨f₁ - 1, by omega⟩
    obtain ⟨g₂, rfl⟩ : ∃ g, f₂ = g + 1 := ⟨f₂ - 1, by omega⟩
    cases hu : x.parent_uuid with
    | none => rw [parentsChain_succ_root _ _ _ hu, parentsChain_succ_root _ _ _ hu]
    | some u =>
      cases hp : mkLookup svs u with
      | none => rw [parentsChain_succ_out _ _ _ _ hu hp, parentsChain_succ_out _ _ _ _ hu hp]
      | some p =>
        obtain ⟨hpm, hplt⟩ := lookup_step svs H x hx u hu p hp
        have hbp : chainBound svs p < k :=
          lt_of_lt_of_le (chainBound_lt svs x p hpm hplt) (by omega)
        rw [parentsChain_succ_step _ _ _ _ _ hu hp, parentsChain_succ_step _ _ _ _ _ hu hp,
          ih p hpm hbp g₁ g₂ (by omega) (by omega)]

/-- The generator's natural stopping discipline: the chain follows
`origin(x), origin(origin(x)), …` and ends exactly at a missing
`parent_uuid` or at a link leaving the working set. -/
inductive AncChain (lookup : String → Option Subvol) : Subvol → List Subvol → Prop
  | stopRoot (x : Subvol) : x.parent_uuid = none → AncChain lookup x []
  | stopOut (x : Subvol) (u : String) :
      x.parent_uuid = some u → lookup u = none → AncChain lookup x []
  | step (x : Subvol) (u : String) (p : Subvol) (c : List Subvol) :
      x.parent_uuid = some u → lookup u = some p → AncChain lookup p c →
      AncChain lookup x (p :: c)

theorem parentsChain_natural_aux (svs : List Subvol) (H : OgenMono svs) :
    ∀ (k : Nat) (x : Subvol), x ∈ svs → chainBound svs x < k → ∀ f, k ≤ f →
      AncChain (mkLookup svs) x (parentsChain (mkLookup svs) f x) := by
  intro k
  induction k with
  | zero => intro x _ h; omega
  | succ k ih =>
    intro x hx hb f h1
    obtain ⟨g, rfl⟩ : ∃ g, f = g + 1 := ⟨f - 1, by omega⟩
    cases hu : x.parent_uuid with
    | none =>
      rw [parentsChain_succ_root _ _ _ hu]
      exact AncChain.stopRoot x hu
    | some u =>
      cases hp : mkLookup svs u with
      | none =>
        rw [parentsChain_succ_out _ _ _ _ hu hp]
        exact AncChain.stopOut x u hu hp
      | some p =>
        obtain ⟨hpm, hplt⟩ := lookup_step svs H x hx u hu p hp
        have hbp : chainBound svs p < k :=
          lt_of_lt_of_le (chainBound_lt svs x p hpm hplt) (by omega)
        rw [parentsChain_succ_step _ _ _ _ _ hu hp]
        exact AncChain.step x u p _ hu hp (ih p hpm hbp g (by omega))

/-- `ogen` strictly decreases along `x :: walk`. -/
theorem parentsChain_pairwise (svs : List Subvol) (H : OgenMono svs) :
    ∀ (f : Nat) (x : Subvol), x ∈ svs →
      (x :: parentsChain (mkLookup svs) f x).Pairwise (fun a b => b.ogen < a.ogen) := by
  intro f
  induction f with
  | zero => intro x _; simp [parentsChain]
  | succ f ih =>
    intro x hx
    cases hu : x.parent_uuid with
    | none => rw [parentsChain_succ_root _ _ _ hu]; simp
    | some u =>
      cases hp : mkLookup svs u with
      | none => rw [parentsChain_succ_out _ _ _ _ hu hp]; simp
      | some p =>
        obtain ⟨hpm, hplt⟩ := lookup_step svs H x hx u hu p hp
        rw [parentsChain_succ_step _ _ _ _ _ hu hp, List.pairwise_cons]
        refine ⟨?_, ih p hpm⟩
        intro y hy
        rcases List.mem_cons.mp hy with rfl | hy
        · exact hplt
        · exact lt_trans (parentsChain_mem_lt svs H f p hpm y hy).2 hplt

/-- C7.  For every subvolume `x` in the working set, under the
precondition that `ogen` strictly increases along snapshot-lineage
edges, the ancestor walk (with the canonical fuel `svs.length`) follows
the chain `origin(x), origin²(x), …`, terminating exactly when
`parent_uuid` is absent or the link leaves the working set
(`AncChain`); it never revisits a node (not even `x`); and it is finite
and fuel-independent: every fuel `≥ svs.length` produces the same
chain. -/
theorem c7_ancestor_walk (svs : List Subvol) (x : Subvol) (hx : x ∈ svs) (H : OgenMono svs) :
    AncChain (mkLookup svs) x (parentsChain (mkLookup svs) svs.length x) ∧
    (x :: parentsChain (mkLookup svs) svs.length x).Nodup ∧
    (∀ f, svs.length ≤ f →
      parentsChain (mkLookup svs) f x = parentsChain (mkLookup svs) svs.length x) := by
  have hb := chainBound_lt_length svs x hx
  refine ⟨parentsChain_natural_aux svs H svs.length x hx hb svs.length le_rfl, ?_, ?_⟩
  · have hpw := parentsChain_pairwise svs H svs.length x hx
    exact hpw.imp (fun {a b} h => by rintro rfl; exact lt_irrefl _ h)
  · intro f hf
    exact parentsChain_stable_aux svs H svs.length x hx hb f svs.length hf le_rfl

/-- Witness working set for C7: `W2` is a snapshot of `W1`. -/

def svW1 : Subvol := ⟨"W1", "w1", none, 1, 5, 1, 1, true⟩

def svW2 : Subvol := ⟨"W2", "w2", some "w1", 2, 5, 3, 2, true⟩

def wsvs : List Subvol := [svW1, svW2]

theorem c7_witness :
    (svW2 ∈ wsvs ∧ OgenMono wsvs) ∧
    (AncChain (mkLookup wsvs) svW2 (parentsChain (mkLookup wsvs) wsvs.length svW2) ∧
     (svW2 :: parentsChain (mkLookup wsvs) wsvs.length svW2).Nodup ∧
     (∀ f, wsvs.length ≤ f →
       parentsChain (mkLookup wsvs) f svW2 = parentsChain (mkLookup wsvs) wsvs.length svW2)) :=
  ⟨⟨by decide, by decide⟩, c7_ancestor_walk wsvs svW2 (by decide) (by decide)⟩

/-! ## C3: the static-child branch of `select_best_ancestor` -/

theorem genIdLe_refl (a : Subvol) : genIdLe a a = true := by
  simp [genIdLe]

/-- C3, amended.  When `done` holds children of `sv` and at least one is
static, the chosen best is the static child occurring *first* in
`done`'s descending `(gen, id)` order — i.e. maximal by `(gen, id)`
among the static children, not the oldest — and the emitted clone-source
set is exactly `{best}`: the children with `ogen > best.ogen` are passed
to `set.union`, whose result the source discards, so no child joins the
clone-source set in this branch. -/
theorem c3_amended (g : Subvol → List Subvol) (sv : Subvol) (done : List Subvol)
    (h : ∃ c ∈ done, c.parent_uuid = some sv.uuid ∧ c.is_static = true) :
    ∃ b, select_best_ancestor g sv done = (some b, [b]) ∧ b ∈ done ∧
      b.parent_uuid = some sv.uuid ∧ b.is_static = true ∧
      ∀ c ∈ done, c.parent_uuid = some sv.uuid → c.is_static = true → genIdLe c b = true := by
  obtain ⟨c, hc, hcp, hcs⟩ := h
  have hcd : c ∈ sortBy genIdGe done := (mem_sortBy _ _ _).mpr hc
  have hcch : c ∈ (sortBy genIdGe done).filter (fun s => s.parent_uuid == some sv.uuid) :=
    List.mem_filter.mpr ⟨hcd, by simp [hcp]⟩
  obtain ⟨b, hb⟩ := getFirst_isSome _ _ c hcch hcs
  obtain ⟨hbm, hbs⟩ := getFirst_eq_some _ (fun x => x.is_static) b hb
  have hbd : b ∈ sortBy genIdGe done := (List.mem_filter.mp hbm).1
  have hbp : b.parent_uuid = some sv.uuid := by
    have h2 := (List.mem_filter.mp hbm).2
    simpa using h2
  refine ⟨b, ?_, (mem_sortBy _ _ _).mp hbd, hbp, hbs, ?_⟩
  · simp only [select_best_ancestor]
    rw [hb]
    simp [selection, csAdd]
  · have hpw : ((sortBy genIdGe done).filter
        (fun s => s.parent_uuid == some sv.uuid)).Pairwise (fun a b => genIdGe a b = true) :=
      (sortBy_pairwise genIdGe genIdGe_trans genIdGe_total done).filter _
    obtain ⟨l₁, l₂, hsplit, hl₁⟩ := getFirst_split _ _ b hb
    intro c' hc' hcp' hcs'
    have hc'ch : c' ∈ l₁ ++ b :: l₂ := by
      rw [← hsplit]
      exact List.mem_filter.mpr ⟨(mem_sortBy _ _ _).mpr hc', by simp [hcp']⟩
    rcases List.mem_append.mp hc'ch with h1 | h2
    · rw [hl₁ c' h1] at hcs'
      cases hcs'
    · rcases List.mem_cons.mp h2 with rfl | h2
      · exact genIdLe_refl c'
      · rw [hsplit] at hpw
        have hsub : List.Pairwise (fun a b => genIdGe a b = true) (b :: l₂) :=
          hpw.sublist (List.sublist_append_right l₁ _)
        exact (List.pairwise_cons.mp hsub).1 c' h2

theorem c3_amended_witness :
    (∃ c ∈ done3, c.parent_uuid = some svP3.uuid ∧ c.is_static = true) ∧
    (∃ b, select_best_ancestor (fun _ => []) svP3 done3 = (some b, [b]) ∧ b ∈ done3 ∧
      b.parent_uuid = some svP3.uuid ∧ b.is_static = true ∧
      ∀ c ∈ done3, c.parent_uuid = some svP3.uuid → c.is_static = true →
        genIdLe c b = true) :=
  ⟨by decide, c3_amended (fun _ => []) svP3 done3 (by decide)⟩

/-! ## C5: subvolume enumeration (`get_subvols`, `Subvol._init_from_show`)

The listing and show outputs are modelled as lists of line strings; the
`show_of` parameter stands for the `btrfs subvolume show` call on a
path.  String helpers are defined over the character list to mirror the
Python string operations. -/

/-- Python `line.split(":", 1)`: split at the first `':'`, `none` when
there is no colon (the `ValueError` path, which `_init_from_show`
answers with `continue`). -/
def splitColonAux : List Char → Option (List Char × List Char)
  | [] => none
  | c :: rest =>
    if c = ':' then some ([], rest)
    else (splitColonAux rest).map (fun pr => (c :: pr.1, pr.2))

def splitColon (s : String) : Option (String × String) :=
  (splitColonAux s.data).map (fun pr => (String.mk pr.1, String.mk pr.2))

/-- Python `str.strip()`. -/
def trimStr (s : String) : String :=
  String.mk (((s.data.dropWhile Char.isWhitespace).reverse.dropWhile Char.isWhitespace).reverse)

/-- Python `str.split()` with no separator: split on whitespace runs,
dropping empty fields. -/
def wordsGo : List Char → List Char → List String
  | [], acc => if acc.isEmpty then [] else [String.mk acc.reverse]
  | c :: rest, acc =>
    if c.isWhitespace then
      if acc.isEmpty then wordsGo rest []
      else String.mk acc.reverse :: wordsGo rest []
    else wordsGo rest (c :: acc)

def words (s : String) : List String := wordsGo s.data []

/-- Decimal digits to a number; `none` when empty or a non-digit
occurs. -/
def digitsNat (l : List Char) : Option Nat :=
  if l.isEmpty then none
  else l.foldl
    (fun acc c => acc.bind
      (fun n => if c.isDigit then some (n * 10 + (c.toNat - 48)) else none)) (some 0)

/-- Python `int(v)` on the stripped value: optional sign then decimal
digits; anything else raises `ValueError` (modelled `none`), which
`_init_from_show` does *not* catch, so it propagates. -/
def parseIntStr (s : String) : Option Int :=
  match s.data with
  | '-' :: rest => (digitsNat rest).map (fun n => -(n : Int))
  | '+' :: rest => (digitsNat rest).map (fun n => (n : Int))
  | l => (digitsNat l).map (fun n => (n : Int))

def leadsWith : List Char → List Char → Bool
  | [], _ => true
  | _ :: _, [] => false
  | p :: ps, c :: cs => p == c && leadsWith ps cs

/-- Python `v.find(pat) != -1`: `pat` occurs as a contiguous run. -/
def containsRun (pat : List Char) : List Char → Bool
  | [] => leadsWith pat []
  | c :: rest => leadsWith pat (c :: rest) || containsRun pat rest

/-- The attributes `_init_from_show` sets while scanning the show
output.  `parent_uuid`'s outer `Option` is the `hasattr` state; the
inner one records the `-` normalisation to `None`. -/
structure ShowAttrs where
  uuid : Option String
  parent_uuid : Option (Option String)
  id : Option Int
  parent_id : Option Int
  gen : Option Int
  ogen : Option Int
  ro : Option Bool
deriving DecidableEq, Repr

def ShowAttrs.empty : ShowAttrs := ⟨none, none, none, none, none, none, none⟩

/-- One line of the key/value scan in `_init_from_show`: lines without a
colon are skipped; recognised keys set the matching attribute (an
unparsable integer raises). -/
def applyShowLine (a : ShowAttrs) (line : String) : Except String ShowAttrs :=
  match splitColon line with
  | none => .ok a
  | some kv =>
    let k := trimStr kv.1
    let v := trimStr kv.2
    if k = "UUID" then .ok { a with uuid := some v }
    else if k = "Parent UUID" then
      .ok { a with parent_uuid := some (if v = "-" then none else some v) }
    else if k = "Subvolume ID" then
      match parseIntStr v with
      | some n => .ok { a with id := some n }
      | none => .error "invalid literal for int()"
    else if k = "Parent ID" then
      match parseIntStr v with
      | some n => .ok { a with parent_id := some n }
      | none => .error "invalid literal for int()"
    else if k = "Generation" then
      match parseIntStr v with
      | some n => .ok { a with gen := some n }
      | none => .error "invalid literal for int()"
    else if k = "Gen at creation" then
      match parseIntStr v with
      | some n => .ok { a with ogen := some n }
      | none => .error "invalid literal for int()"
    else if k = "Flags" then .ok { a with ro := some (containsRun "readonly".data v.data) }
    else .ok a

/-- The final `hasattr` check of `_init_from_show`: each of
`parent_id, parent_uuid, ro, gen, ogen, uuid` must have been set, else
`MissingAttr` is raised (in that order). -/
def checkAttrs (a : ShowAttrs) : Except String ShowAttrs :=
  if a.parent_id.isNone then .error "no parent_id"
  else if a.parent_uuid.isNone then .error "no parent_uuid"
  else if a.ro.isNone then .error "no ro"
  else if a.gen.isNone then .error "no gen"
  else if a.ogen.isNone then .error "no ogen"
  else if a.uuid.isNone then .error "no uuid"
  else .ok a

/-- `Subvol._init_from_show`: scan the show lines and then check that
every required attribute was seen. -/
def initFromShow (lines : List String) : Except String ShowAttrs :=
  match lines.foldlM applyShowLine ShowAttrs.empty with
  | .error e => .error e
  | .ok a => checkAttrs a

/-- `get_subvols`: scan the listing; skip empty lines and lines whose
leading character is not a digit (headers); build a `Subvol` from the
fourth whitespace-separated field.  The `except (Subvol.NoSubvol,
IndexError): pass` clause swallows the `IndexError` of `line.split()[3]`
(rows with fewer than four fields are silently skipped); every other
exception — in particular `MissingAttr` and `int()`'s `ValueError` — is
re-raised. -/
def get_subvols (show_of : String → List String) : List String → Except String (List String)
  | [] => .ok []
  | line :: rest =>
    match line.data with
    | [] => get_subvols show_of rest
    | c :: _ =>
      if !c.isDigit then get_subvols show_of rest
      else
        match (words line)[3]? with
        | none => get_subvols show_of rest
        | some path =>
          match initFromShow (show_of path) with
          | .error e => .error e
          | .ok _ => Except.map (fun l => path :: l) (get_subvols show_of rest)

/-- A listing row the enumeration actually processes: non-empty, digit
leading character, at least four fields. -/
def processedRow (line : String) : Bool :=
  match line.data with
  | [] => false
  | c :: _ => c.isDigit && ((words line)[3]?).isSome

theorem get_subvols_empty (show_of : String → List String) (line : String)
    (rest : List String) (h : line.data = []) :
    get_subvols show_of (line :: rest) = get_subvols show_of rest := by
  simp [get_subvols, h]

theorem get_subvols_header (show_of : String → List String) (line : String)
    (rest : List String) (c : Char) (cs : List Char) (h : line.data = c :: cs)
    (hc : c.isDigit = false) :
    get_subvols show_of (line :: rest) = get_subvols show_of rest := by
  simp [get_subvols, h, hc]

theorem get_subvols_short (show_of : String → List String) (line : String)
    (rest : List String) (c : Char) (cs : List Char) (h : line.data = c :: cs)
    (hc : c.isDigit = true) (hw : (words line)[3]? = none) :
    get_subvols show_of (line :: rest) = get_subvols show_of rest := by
  simp [get_subvols, h, hc, hw]

theorem get_subvols_err (show_of : String → List String) (line : String)
    (rest : List String) (c : Char) (cs : List Char) (h : line.data = c :: cs)
    (hc : c.isDigit = true) (path : String) (hw : (words line)[3]? = some path)
    (e : String) (hi : initFromShow (show_of path) = .error e) :
    get_subvols show_of (line :: rest) = .error e := by
  simp [get_subvols, h, hc, hw, hi]

theorem get_subvols_ok (show_of : String → List String) (line : String)
    (rest : List String) (c : Char) (cs : List Char) (h : line.data = c :: cs)
    (hc : c.isDigit = true) (path : String) (hw : (words line)[3]? = some path)
    (a : ShowAttrs) (hi : initFromShow (show_of path) = .ok a) :
    get_subvols show_of (line :: rest) =
      Except.map (fun l => path :: l) (get_subvols show_of rest) := by
  simp [get_subvols, h, hc, hw, hi]

instance {ε α : Type} [DecidableEq ε] [DecidableEq α] : DecidableEq (Except ε α) :=
  fun a b =>
    match a, b with
    | .error e, .error f => decidable_of_iff (e = f) (by simp)
    | .ok x, .ok y => decidable_of_iff (x = y) (by simp)
    | .error _, .ok _ => isFalse (by simp)
    | .ok _, .error _ => isFalse (by simp)

theorem except_map_error_iff (f : α → β) (x : Except String α) :
    (∃ e, Except.map f x = .error e) ↔ (∃ e, x = .error e) := by
  cases x <;> simp [Except.map]

/-- C5, counterexample.  The listing row `"7"` has a numeric leading
field (so it is not a header row) but fewer than four fields (a
malformed row); the claim says it must abort the enumeration, but
`get_subvols` silently skips it and succeeds. -/
theorem c5_counterexample :
    ("7".data.head?.map Char.isDigit = some true) ∧
    get_subvols (fun _ => []) ["ID gen parent top", "7"] = .ok [] := by decide

theorem checkAttrs_error_iff (a : ShowAttrs) :
    (∃ e, checkAttrs a = .error e) ↔
      (a.parent_id = none ∨ a.parent_uuid = none ∨ a.ro = none ∨
       a.gen = none ∨ a.ogen = none ∨ a.uuid = none) := by
  unfold checkAttrs
  split_ifs <;> simp_all [Option.isNone_iff_eq_none]

/-- C5, amended.  Enumeration errors exactly when a *processed* row
(non-empty, numeric leading field, at least four fields) names a
subvolume whose show output fails to parse; empty lines, header rows
(non-numeric leading field) and short rows are all skipped silently.
And `_init_from_show` fails whenever the scan leaves one of
`parent_id, parent_uuid, ro, gen, ogen, uuid` unset. -/
theorem c5_amended (show_of : String → List String) (listing : List String) :
    ((∃ e, get_subvols show_of listing = .error e) ↔
      (∃ line ∈ listing, ∃ path, processedRow line = true ∧
        (words line)[3]? = some path ∧ ∃ e, initFromShow (show_of path) = .error e)) ∧
    (∀ lines a, lines.foldlM applyShowLine ShowAttrs.empty = Except.ok a →
      (a.parent_id = none ∨ a.parent_uuid = none ∨ a.ro = none ∨
       a.gen = none ∨ a.ogen = none ∨ a.uuid = none) →
      ∃ e, initFromShow lines = .error e) := by
  constructor
  · induction listing with
    | nil => simp [get_subvols]
    | cons line rest ih =>
      cases hd : line.data with
      | nil =>
        rw [get_subvols_empty show_of line rest hd]
        simp only [List.mem_cons]
        rw [ih]
        constructor
        · rintro ⟨l, hl, hrest⟩
          exact ⟨l, Or.inr hl, hrest⟩
        · rintro ⟨l, hl | hl, hrest⟩
          · subst hl
            obtain ⟨path, hp, _⟩ := hrest
            simp [processedRow, hd] at hp
          · exact ⟨l, hl, hrest⟩
      | cons c cs =>
        by_cases hc : c.isDigit = true
        · cases hw : (words line)[3]? with
          | none =>
            rw [get_subvols_short show_of line rest c cs hd hc hw]
            rw [ih]
            simp only [List.mem_cons]
            constructor
            · rintro ⟨l, hl, hrest⟩
              exact ⟨l, Or.inr hl, hrest⟩
            · rintro ⟨l, hl | hl, hrest⟩
              · subst hl
                obtain ⟨path, hp, hpath, _⟩ := hrest
                rw [hw] at hpath
                cases hpath
              · exact ⟨l, hl, hrest⟩
          | some path =>
            cases hi : initFromShow (show_of path) with
            | error e =>
              rw [get_subvols_err show_of line rest c cs hd hc path hw e hi]
              constructor
              · intro _
                refine ⟨line, List.mem_cons_self _ _, path, ?_, hw, e, hi⟩
                simp [processedRow, hd, hc, hw]
              · intro _
                exact ⟨e, rfl⟩
            | ok a =>
              rw [get_subvols_ok show_of line rest c cs hd hc path hw a hi]
              rw [except_map_error_iff, ih]
              simp only [List.mem_cons]
              constructor
              · rintro ⟨l, hl, hrest⟩
                exact ⟨l, Or.inr hl, hrest⟩
              · rintro ⟨l, hl | hl, hrest⟩
                · subst hl
                  obtain ⟨path', hp, hpath', e, he⟩ := hrest
                  rw [hw] at hpath'
                  cases hpath'
                  rw [hi] at he
                  cases he
                · exact ⟨l, hl, hrest⟩
        · rw [get_subvols_header show_of line rest c cs hd (Bool.eq_false_iff.mpr hc)]
          rw [ih]
          simp only [List.mem_cons]
          constructor
          · rintro ⟨l, hl, hrest⟩
            exact ⟨l, Or.inr hl, hrest⟩
          · rintro ⟨l, hl | hl, hrest⟩
            · subst hl
              obtain ⟨path, hp, _⟩ := hrest
              simp [processedRow, hd] at hp
              simp [hp.1] at hc
            · exact ⟨l, hl, hrest⟩
  · intro lines a hok hmiss
    unfold initFromShow
    rw [hok]
    exact (checkAttrs_error_iff a).mpr hmiss

/-! ## C10: the staging-area move pass (`move_to_tree_pos`,
`SvBaseDir.__exit__`) -/

/-- The observable file-system state `move_to_tree_pos` consults for one
subvolume: whether the staged copy `<base>/<sv.id>/<basename(goal)>`
exists (`cur`) and whether the goal path exists (`goal`). -/
structure MvSv where
  sv : Subvol
  cur : Bool
  goal : Bool
deriving DecidableEq, Repr

/-- `move_to_tree_pos(sv, new, sv_base, done)` (non-dry-run), returning
the subvolume's new placement, the new `done` set, and the return value.
The read-only toggling and the `rmdir` around the `mv` are effects on
paths this model does not track.
* staged copy absent, goal present: `"ah, already moved"` — returns
  `True`, but `done` is *not* extended;
* staged copy absent, goal absent: `"ERROR: not created"` — `False`;
* staged, and `parent_id == 5 or parent_id in done`: move it and add
  `sv.id` to `done` — `True`;
* otherwise `"Hmm, parent not found"` — left in staging, `False`. -/
def move_to_tree_pos (m : MvSv) (done : List Int) : MvSv × List Int × Bool :=
  if m.cur = false then
    if m.goal then (m, done, true)
    else (m, done, false)
  else if m.sv.parent_id == 5 || decide (m.sv.parent_id ∈ done) then
    ({ m with cur := false, goal := true }, done.insert m.sv.id, true)
  else (m, done, false)

/-- The loop of `SvBaseDir.__exit__` over the sorted subvolume list,
threading `done`. -/
def exitPass (done : List Int) : List MvSv → List MvSv × List Int
  | [] => ([], done)
  | m :: rest =>
    let r := move_to_tree_pos m done
    let rr := exitPass r.2.1 rest
    (r.1 :: rr.1, rr.2)

/-- `SvBaseDir.__exit__`: sort the subvolumes by `(parent_id, id)`, then
run `move_to_tree_pos` on each with an initially empty `done` set. -/
def sv_base_exit (ms : List MvSv) : List MvSv × List Int :=
  exitPass [] (sortBy (fun a b => pidIdLe a.sv b.sv) ms)

/-- If no staged subvolume carries the id `P`, then `P` never enters
`done` during the pass, and every staged subvolume whose tree parent is
`P` (and not the top level) comes out of the pass unchanged — still
staged. -/
theorem exitPass_frame (P : Int) :
    ∀ (l : List MvSv) (done : List Int),
      (∀ m ∈ l, m.cur = true → m.sv.id ≠ P) → P ∉ done →
      P ∉ (exitPass done l).2 ∧
      (∀ m ∈ l, m.cur = true → m.sv.parent_id = P → m.sv.parent_id ≠ 5 →
        m ∈ (exitPass done l).1) := by
  intro l
  induction l with
  | nil =>
    intro done _ hP
    exact ⟨hP, by simp⟩
  | cons m rest ih =>
    intro done h hP
    have hm := h m (List.mem_cons_self _ _)
    have hrest : ∀ m' ∈ rest, m'.cur = true → m'.sv.id ≠ P :=
      fun m' hm' => h m' (List.mem_cons_of_mem _ hm')
    cases hcur : m.cur with
    | false =>
      have hmv : move_to_tree_pos m done = (m, done, if m.goal then true else false) := by
        simp only [move_to_tree_pos, hcur]
        cases m.goal <;> simp
      have hstep : exitPass done (m :: rest) =
          ((m :: (exitPass done rest).1), (exitPass done rest).2) := by
        simp [exitPass, hmv]
      rw [hstep]
      obtain ⟨ha, hb⟩ := ih done hrest hP
      refine ⟨ha, ?_⟩
      intro m' hm' hc' hp' h5'
      rcases List.mem_cons.mp hm' with rfl | hm'
      · rw [hcur] at hc'; cases hc'
      · exact List.mem_cons_of_mem _ (hb m' hm' hc' hp' h5')
    | true =>
      by_cases hperm : (m.sv.parent_id == 5 || decide (m.sv.parent_id ∈ done)) = true
      · have hmv : move_to_tree_pos m done =
            ({ m with cur := false, goal := true }, done.insert m.sv.id, true) := by
          simp only [move_to_tree_pos, hcur]
          simp [hperm]
        have hstep : exitPass done (m :: rest) =
            (({ m with cur := false, goal := true } :: (exitPass (done.insert m.sv.id) rest).1),
              (exitPass (done.insert m.sv.id) rest).2) := by
          simp [exitPass, hmv]
        rw [hstep]
        have hPn : P ∉ done.insert m.sv.id := by
          intro hPin
          rcases List.mem_insert_iff.mp hPin with rfl | hPin
          · exact hm hcur rfl
          · exact hP hPin
        obtain ⟨ha, hb⟩ := ih (done.insert m.sv.id) hrest hPn
        refine ⟨ha, ?_⟩
        intro m' hm' hc' hp' h5'
        rcases List.mem_cons.mp hm' with rfl | hm'
        · exfalso
          rcases Bool.or_eq_true_iff.mp hperm with h5'' | hin
          · exact h5' (by simpa using h5'')
          · rw [hp'] at hin
            exact hP (by simpa using hin)
        · exact List.mem_cons_of_mem _ (hb m' hm' hc' hp' h5')
      · have hmv : move_to_tree_pos m done = (m, done, false) := by
          simp only [move_to_tree_pos, hcur]
          simp [hperm]
        have hstep : exitPass done (m :: rest) =
            ((m :: (exitPass done rest).1), (exitPass done rest).2) := by
          simp [exitPass, hmv]
        rw [hstep]
        obtain ⟨ha, hb⟩ := ih done hrest hP
        refine ⟨ha, ?_⟩
        intro m' hm' hc' hp' h5'
        rcases List.mem_cons.mp hm' with rfl | hm'
        · exact List.mem_cons_self _ _
        · exact List.mem_cons_of_mem _ (hb m' hm' hc' hp' h5')

/-- C10.  When `move_to_tree_pos` finds the staged copy absent but the
goal path present (the already-moved replay case) it reports success
*without* adding `sv.id` to `done`; consequently, in a staging-exit pass
where no staged subvolume carries that id, a subvolume whose `parent_id`
equals it (and is not the top level 5) is never permitted to move and
comes out of the pass unchanged, still under the staging base. -/
theorem c10_already_moved_frame (ms : List MvSv) (m1 m2 : MvSv)
    (_h1 : m1 ∈ ms) (h1c : m1.cur = false) (h1g : m1.goal = true)
    (h2 : m2 ∈ ms) (h2c : m2.cur = true)
    (_hpid : m2.sv.parent_id = m1.sv.id) (h5 : m2.sv.parent_id ≠ 5)
    (hno : ∀ m ∈ ms, m.cur = true → m.sv.id ≠ m2.sv.parent_id) :
    (∀ done, move_to_tree_pos m1 done = (m1, done, true)) ∧
    m2 ∈ (sv_base_exit ms).1 ∧ m2.sv.parent_id ∉ (sv_base_exit ms).2 := by
  refine ⟨?_, ?_⟩
  · intro done
    simp [move_to_tree_pos, h1c, h1g]
  · have hperm : ∀ m, m ∈ sortBy (fun a b => pidIdLe a.sv b.sv) ms ↔ m ∈ ms :=
      fun m => mem_sortBy _ _ _
    have h := exitPass_frame m2.sv.parent_id (sortBy (fun a b => pidIdLe a.sv b.sv) ms) []
      (fun m hm hc => hno m ((hperm m).mp hm) hc) (by simp)
    exact ⟨h.2 m2 ((hperm m2).mpr h2) h2c rfl h5, h.1⟩

/-- Witness input for C10: `Q1` is already moved (staged copy gone, goal
present), `Q2` is staged with tree parent `Q1`. -/

def svQ1 : Subvol := ⟨"Q1", "q1", none, 7, 5, 1, 1, true⟩

def svQ2 : Subvol := ⟨"Q2", "q2", none, 8, 7, 2, 2, true⟩

def mvQ1 : MvSv := ⟨svQ1, false, true⟩

def mvQ2 : MvSv := ⟨svQ2, true, false⟩

def mvList : List MvSv := [mvQ1, mvQ2]

theorem c10_witness :
    (mvQ1 ∈ mvList ∧ mvQ1.cur = false ∧ mvQ1.goal = true ∧
     mvQ2 ∈ mvList ∧ mvQ2.cur = true ∧
     mvQ2.sv.parent_id = mvQ1.sv.id ∧ mvQ2.sv.parent_id ≠ 5 ∧
     (∀ m ∈ mvList, m.cur = true → m.sv.id ≠ mvQ2.sv.parent_id)) ∧
    ((∀ done, move_to_tree_pos mvQ1 done = (mvQ1, done, true)) ∧
     mvQ2 ∈ (sv_base_exit mvList).1 ∧ mvQ2.sv.parent_id ∉ (sv_base_exit mvList).2) :=
  ⟨⟨by decide, by decide, by decide, by decide, by decide, by decide, by decide, by decide⟩,
   c10_already_moved_frame mvList mvQ1 mvQ2 (by decide) (by decide) (by decide) (by decide)
     (by decide) (by decide) (by decide) (by decide)⟩

/-! ## The selection spec of the generation strategy

`SelOk S r`: the chosen best (if any) and every clone source of the
result `r` are members of `S` (instantiated with the `done` set), and
the best is itself in the returned clone-source set. -/

def SelOk (S : List Subvol) (r : Option Subvol × List Subvol) : Prop :=
  (∀ b, r.1 = some b → b ∈ S ∧ b ∈ r.2) ∧ (∀ c ∈ r.2, c ∈ S)

theorem csAdd_subset (S : List Subvol) (cs : List Subvol) (o : Option Subvol)
    (hcs : ∀ c ∈ cs, c ∈ S) (ho : ∀ x, o = some x → x ∈ S) :
    ∀ c ∈ csAdd cs o, c ∈ S := by
  intro c hc
  rcases (mem_csAdd cs o c).mp hc with h | h
  · exact hcs c h
  · exact ho c h

theorem selection_selOk (S : List Subvol) (cs : List Subvol) (best : Option Subvol)
    (hcs : ∀ c ∈ cs, c ∈ S) (hb : ∀ b, best = some b → b ∈ S) :
    SelOk S (selection cs best) := by
  constructor
  · intro b hbeq
    have hbeq' : best = some b := hbeq
    exact ⟨hb b hbeq', (mem_csAdd cs best b).mpr (Or.inr hbeq')⟩
  · exact csAdd_subset S cs best hcs hb

theorem sbaNicest_selOk (S : List Subvol) (sv : Subvol) (cs cand : List Subvol)
    (hcs : ∀ c ∈ cs, c ∈ S) (hcand : ∀ c ∈ cand, c ∈ S) :
    SelOk S (sbaNicest sv cs cand) := by
  unfold sbaNicest
  cases hg : getMin cand (fun _ => true) (fun x => ((x.ogen - sv.ogen).natAbs : Int)) with
  | none => exact selection_selOk S cs none hcs (by simp)
  | some b =>
    exact selection_selOk S cs (some b) hcs
      (fun b' hb' => by cases hb'; exact hcand b (getMin_mem _ _ _ b hg).1)

theorem sbaStaticAnc_selOk (S : List Subvol) (sv : Subvol) (cs3 cand : List Subvol)
    (ancestor : Option Subvol)
    (hcs3 : ∀ c ∈ cs3, c ∈ S) (hcand : ∀ c ∈ cand, c ∈ S)
    (hanc : ∀ a, ancestor = some a → a ∈ S) :
    SelOk S (sbaStaticAnc sv cs3 cand ancestor) := by
  cases ancestor with
  | none => exact sbaNicest_selOk S sv _ _ hcs3 hcand
  | some anc =>
    simp only [sbaStaticAnc]
    by_cases hst : anc.is_static = true
    · rw [if_pos hst]
      exact selection_selOk S _ (some anc) hcs3 (fun b' hb' => by cases hb'; exact hanc anc rfl)
    · rw [if_neg hst]
      exact sbaNicest_selOk S sv _ _ hcs3 hcand

theorem sbaCascadeCore_selOk (S : List Subvol) (sv : Subvol) (cs2 : List Subvol)
    (ancestor ysb yb ybo oss os osg : Option Subvol)
    (hcs2 : ∀ c ∈ cs2, c ∈ S)
    (hanc : ∀ a, ancestor = some a → a ∈ S)
    (hysb : ∀ a, ysb = some a → a ∈ S) (hyb : ∀ a, yb = some a → a ∈ S)
    (hybo : ∀ a, ybo = some a → a ∈ S) (hoss : ∀ a, oss = some a → a ∈ S)
    (hos : ∀ a, os = some a → a ∈ S) (hosg : ∀ a, osg = some a → a ∈ S) :
    SelOk S (sbaCascadeCore sv cs2 ancestor ysb yb ybo oss os osg) := by
  have hcs3 : ∀ c ∈ csAdd (csAdd (csAdd (csAdd (csAdd (csAdd cs2 ysb) yb) ybo) oss) os) osg,
      c ∈ S :=
    csAdd_subset S _ osg
      (csAdd_subset S _ os
        (csAdd_subset S _ oss
          (csAdd_subset S _ ybo
            (csAdd_subset S _ yb
              (csAdd_subset S _ ysb hcs2 hysb) hyb) hybo) hoss) hos) hosg
  have hcand : ∀ c ∈ csAdd (csAdd (csAdd (csAdd [] ancestor) ybo) os) osg, c ∈ S :=
    csAdd_subset S _ osg
      (csAdd_subset S _ os
        (csAdd_subset S _ ybo
          (csAdd_subset S _ ancestor (by simp) hanc) hybo) hos) hosg
  cases ysb with
  | some b =>
    exact selection_selOk S _ (some b) hcs3 (fun b' hb' => by cases hb'; exact hysb b rfl)
  | none =>
  cases oss with
  | some d =>
    exact selection_selOk S _ (some d) hcs3 (fun b' hb' => by cases hb'; exact hoss d rfl)
  | none =>
  cases yb with
  | some b =>
    exact selection_selOk S _ (some b) hcs3 (fun b' hb' => by cases hb'; exact hyb b rfl)
  | none => exact sbaStaticAnc_selOk S sv _ _ ancestor hcs3 hcand hanc

theorem sbaCascade_selOk (S : List Subvol) (sv : Subvol) (cs2 : List Subvol)
    (ancestor : Option Subvol) (siblings : List Subvol)
    (hcs2 : ∀ c ∈ cs2, c ∈ S)
    (hanc : ∀ a, ancestor = some a → a ∈ S)
    (hsib : ∀ c ∈ siblings, c ∈ S) :
    SelOk S (sbaCascade sv cs2 ancestor siblings) := by
  have hbro : ∀ c ∈ siblings.filter (fun x => decide (x.ogen < sv.ogen)), c ∈ S :=
    fun c hc => hsib c (List.mem_filter.mp hc).1
  have hsis : ∀ c ∈ siblings.filter (fun x => decide (sv.ogen ≤ x.ogen)), c ∈ S :=
    fun c hc => hsib c (List.mem_filter.mp hc).1
  unfold sbaCascade
  apply sbaCascadeCore_selOk S sv cs2 ancestor _ _ _ _ _ _ hcs2 hanc
  · exact fun a ha => hbro a (getMax_mem _ _ _ a ha).1
  · exact fun a ha => hbro a (getMax_mem _ _ _ a ha).1
  · exact fun a ha => hbro a (getMax_mem _ _ _ a ha).1
  · exact fun a ha => hsis a (getMin_mem _ _ _ a ha).1
  · exact fun a ha => hsis a (getMin_mem _ _ _ a ha).1
  · exact fun a ha => hsis a (getMin_mem _ _ _ a ha).1

theorem sbaSiblings_selOk (S : List Subvol) (sv : Subvol) (cs2 : List Subvol)
    (ancestor : Option Subvol) (siblings : List Subvol)
    (hcs2 : ∀ c ∈ cs2, c ∈ S)
    (hanc : ∀ a, ancestor = some a → a ∈ S)
    (hsib : ∀ c ∈ siblings, c ∈ S) :
    SelOk S (sbaSiblings sv cs2 ancestor siblings) := by
  unfold sbaSiblings
  split
  · cases ancestor with
    | some anc =>
      exact selection_selOk S cs2 (some anc) hcs2 (fun b hb => by cases hb; exact hanc anc rfl)
    | none => exact selection_selOk S cs2 none hcs2 (by simp)
  · exact sbaCascade_selOk S sv cs2 ancestor siblings hcs2 hanc hsib

theorem sbaMom_selOk (S : List Subvol) (sv : Subvol) (done cs1 : List Subvol) (mom : Subvol)
    (ancestor : Option Subvol)
    (hdone : ∀ c ∈ done, c ∈ S)
    (hcs1 : ∀ c ∈ cs1, c ∈ S)
    (hanc : ∀ a, ancestor = some a → a ∈ S) :
    SelOk S (sbaMom sv done cs1 mom ancestor) := by
  have hcs2 : ∀ c ∈ csAdd cs1 ancestor, c ∈ S := csAdd_subset S cs1 ancestor hcs1 hanc
  unfold sbaMom
  split
  · rename_i heq
    exact selection_selOk S _ (some mom) hcs2 (fun b hb => by cases hb; exact hanc mom heq)
  · exact sbaSiblings_selOk S sv _ ancestor _ hcs2 hanc
      (fun c hc => hdone c (List.mem_filter.mp hc).1)

theorem sbaAncestors_selOk (S : List Subvol) (sv : Subvol) (done cs1 ancestors : List Subvol)
    (hdone : ∀ c ∈ done, c ∈ S) (hcs1 : ∀ c ∈ cs1, c ∈ S) :
    SelOk S (sbaAncestors sv done cs1 ancestors) := by
  unfold sbaAncestors
  cases ancestors with
  | nil => exact selection_selOk S cs1 none hcs1 (by simp)
  | cons mom rest =>
    apply sbaMom_selOk S sv done cs1 mom _ hdone hcs1
    intro a ha
    have h := getMax_mem _ _ _ a ha
    exact hdone a (of_decide_eq_true h.2)

/-- Everything `select_best_ancestor` returns — the best (when present)
and every clone source — comes from `done`, and the best is always a
member of the returned clone-source set. -/
theorem select_best_ancestor_spec (g : Subvol → List Subvol) (sv : Subvol)
    (done : List Subvol) : SelOk done (select_best_ancestor g sv done) := by
  have hdone : ∀ c ∈ sortBy genIdGe done, c ∈ done :=
    fun c hc => (mem_sortBy _ _ _).mp hc
  have hch : ∀ c ∈ (sortBy genIdGe done).filter (fun s => s.parent_uuid == some sv.uuid),
      c ∈ done := fun c hc => hdone c (List.mem_filter.mp hc).1
  simp only [select_best_ancestor]
  cases hgf : getFirst ((sortBy genIdGe done).filter
      (fun s => s.parent_uuid == some sv.uuid)) (fun x => x.is_static) with
  | some b =>
    refine selection_selOk done [] (some b) (by simp) ?_
    intro b' hb'
    cases hb'
    exact hch b (getFirst_eq_some _ _ b hgf).1
  | none =>
    apply sbaAncestors_selOk done sv _ _ (g sv) hdone
    intro c hc
    exact hch c (((mem_csUpdate _ [] c).mp hc).resolve_left (by simp))

/-! ## C4: topological soundness -/

/-- `SoundFrom prior sends`: every send's `-p` parent and every `-c`
clone source was already sent — it is in `prior` or is the subject of an
earlier send of `sends`. -/
inductive SoundFrom : List Subvol → List Send → Prop
  | nil (prior : List Subvol) : SoundFrom prior []
  | cons (prior : List Subvol) (s : Send) (sends : List Send)
      (hp : ∀ p, s.parent = some p → p ∈ prior)
      (hc : ∀ c ∈ s.clones, c ∈ prior)
      (ht : SoundFrom (prior ++ [s.sv]) sends) : SoundFrom prior (s :: sends)

theorem SoundFrom.mono : ∀ {prior sends}, SoundFrom prior sends →
    ∀ prior', (∀ a ∈ prior, a ∈ prior') → SoundFrom prior' sends := by
  intro prior sends h
  induction h with
  | nil prior => exact fun prior' _ => SoundFrom.nil prior'
  | cons prior s sends hp hc _ ih =>
    intro prior' hsub
    refine SoundFrom.cons prior' s sends (fun p hps => hsub _ (hp p hps))
      (fun c hcs => hsub _ (hc c hcs)) ?_
    refine ih (prior' ++ [s.sv]) ?_
    intro a ha
    rcases List.mem_append.mp ha with h1 | h1
    · exact List.mem_append_left _ (hsub a h1)
    · exact List.mem_append_right _ h1

theorem SoundFrom.append : ∀ {prior A B}, SoundFrom prior A →
    SoundFrom (prior ++ A.map Send.sv) B → SoundFrom prior (A ++ B) := by
  intro prior A B hA
  induction hA generalizing B with
  | nil prior =>
    intro hB
    simpa using hB.mono _ (by simp)
  | cons prior s sends hp hc _ ih =>
    intro hB
    refine SoundFrom.cons prior s (sends ++ B) hp hc ?_
    refine ih ?_
    refine hB.mono _ ?_
    intro a ha
    simp only [List.map_cons, List.append_assoc, List.singleton_append] at *
    exact ha

theorem SoundFrom.split : ∀ {prior sends}, SoundFrom prior sends →
    ∀ l₁ s l₂, sends = l₁ ++ s :: l₂ →
      (∀ p, s.parent = some p → p ∈ prior ++ l₁.map Send.sv) ∧
      (∀ c ∈ s.clones, c ∈ prior ++ l₁.map Send.sv) := by
  intro prior sends h
  induction h with
  | nil prior =>
    intro l₁ s l₂ heq
    exact absurd heq (by simp)
  | cons prior s0 sends hp hc _ ih =>
    intro l₁ s l₂ heq
    cases l₁ with
    | nil =>
      simp only [List.nil_append, List.cons.injEq] at heq
      obtain ⟨rfl, rfl⟩ := heq
      constructor
      · intro p hps
        simpa using hp p hps
      · intro c hcs
        simpa using hc c hcs
    | cons a l₁' =>
      simp only [List.cons_append, List.cons.injEq] at heq
      obtain ⟨rfl, heq⟩ := heq
      have h2 := ih l₁' s l₂ heq
      constructor
      · intro p hps
        have := h2.1 p hps
        simpa [List.append_assoc] using this
      · intro c hcs
        have := h2.2 c hcs
        simpa [List.append_assoc] using this

/-! ### The `parent` strategy is sound -/

theorem parent_strategy_sound_aux (sorted : List Subvol)
    (hpw : sorted.Pairwise (fun a b => ogenIdLe a b = true))
    (lookup : String → Option Subvol) (fuel : Nat)
    (hanc : ∀ sv ∈ sorted, ∀ p ∈ parentsChain lookup fuel sv, p ∈ sorted ∧ p.ogen < sv.ogen) :
    ∀ (l pre : List Subvol), sorted = pre ++ l →
      SoundFrom pre (l.map (send_subvol_parent lookup fuel)) := by
  intro l
  induction l with
  | nil => exact fun pre _ => SoundFrom.nil pre
  | cons hd t ih =>
    intro pre heq
    have hall : ∀ p ∈ parentsChain lookup fuel hd, p ∈ pre := by
      intro p hpchain
      have hh : hd ∈ sorted := by rw [heq]; simp
      obtain ⟨hpm, hplt⟩ := hanc hd hh p hpchain
      rw [heq] at hpm
      rcases List.mem_append.mp hpm with hcase | hcase
      · exact hcase
      · exfalso
        rcases List.mem_cons.mp hcase with rfl | hct
        · exact lt_irrefl _ hplt
        · have hle : ogenIdLe hd p = true := by
            rw [heq] at hpw
            have hp2 := (List.pairwise_append.mp hpw).2.1
            exact (List.pairwise_cons.mp hp2).1 p hct
          exact absurd hplt (not_lt.mpr (ogenIdLe_ogen_le hd p hle))
    refine SoundFrom.cons pre _ _ ?_ ?_ ?_
    · intro p hps
      have hps' : (parentsChain lookup fuel hd).head? = some p := hps
      cases hchain : parentsChain lookup fuel hd with
      | nil => rw [hchain] at hps'; cases hps'
      | cons q rest =>
        rw [hchain] at hps'
        cases hps'
        exact hall p (by rw [hchain]; exact List.mem_cons_self _ _)
    · exact hall
    · exact ih (pre ++ [hd]) (by rw [heq]; simp)

theorem send_subvols_parent_sound (svs : List Subvol) (H : OgenMono svs) :
    SoundFrom [] (send_subvols_parent svs) := by
  have hperm := sortBy_perm ogenIdLe svs
  have Hs : OgenMono (sortBy ogenIdLe svs) := fun s hs p hp hpu =>
    H s (hperm.mem_iff.mp hs) p (hperm.mem_iff.mp hp) hpu
  have hpw := sortBy_pairwise ogenIdLe ogenIdLe_trans ogenIdLe_total svs
  have hanc : ∀ sv ∈ sortBy ogenIdLe svs,
      ∀ p ∈ parentsChain (mkLookup (sortBy ogenIdLe svs)) (sortBy ogenIdLe svs).length sv,
        p ∈ sortBy ogenIdLe svs ∧ p.ogen < sv.ogen :=
    fun sv hsv p hp => parentsChain_mem_lt _ Hs _ sv hsv p hp
  exact parent_strategy_sound_aux _ hpw _ _ hanc _ [] rfl

/-! ### The `snapshot` strategy is sound -/

theorem snapKids_nil_f (f : Subvol → Subvol → List Send) (h : ∀ c prev, f c prev = []) :
    ∀ snaps prev, snapKids f snaps prev = [] := by
  intro snaps
  induction snaps with
  | nil => intro prev; rfl
  | cons snap rest ih =>
    intro prev
    show f snap prev ++ snapKids f rest snap = []
    rw [h snap prev, ih snap]
    rfl

theorem snapKids_sound (f : Subvol → Subvol → List Send)
    (hf : ∀ c prev prior', prev ∈ prior' → SoundFrom prior' (f c prev))
    (hemit : ∀ c prev, c ∈ (f c prev).map Send.sv) :
    ∀ (snaps : List Subvol) (prev : Subvol) (prior : List Subvol), prev ∈ prior →
      SoundFrom prior (snapKids f snaps prev) := by
  intro snaps
  induction snaps with
  | nil => intro prev prior _; exact SoundFrom.nil prior
  | cons snap rest ih =>
    intro prev prior hprev
    show SoundFrom prior (f snap prev ++ snapKids f rest snap)
    refine SoundFrom.append (hf snap prev prior hprev) ?_
    refine ih snap (prior ++ (f snap prev).map Send.sv) ?_
    exact List.mem_append_right _ (hemit snap prev)

theorem send_subvol_snap_zero (svs : List Subvol) (sv : Subvol) (parent : Option Subvol) :
    send_subvol_snap svs 0 sv parent = [] := rfl

theorem send_subvol_snap_succ (svs : List Subvol) (fuel : Nat) (sv : Subvol)
    (parent : Option Subvol) :
    send_subvol_snap svs (fuel+1) sv parent =
      { sv := sv, parent := parent, clones := parent.toList } ::
        snapKids (fun snap prev => send_subvol_snap svs fuel snap (some prev))
          (sortBy ogenIdGe (svs.filter (fun x => x.parent_uuid == some sv.uuid))) sv := rfl

theorem send_subvol_snap_sound (svs : List Subvol) :
    ∀ (fuel : Nat) (sv : Subvol) (parent : Option Subvol) (prior : List Subvol),
      (∀ p, parent = some p → p ∈ prior) →
      SoundFrom prior (send_subvol_snap svs fuel sv parent) := by
  intro fuel
  induction fuel with
  | zero =>
    intro sv parent prior _
    rw [send_subvol_snap_zero]
    exact SoundFrom.nil prior
  | succ fuel ih =>
    intro sv parent prior hp
    rw [send_subvol_snap_succ]
    refine SoundFrom.cons prior _ _ hp ?_ ?_
    · intro c hc
      cases parent with
      | none => cases hc
      | some p =>
        rcases List.mem_singleton.mp hc with rfl
        exact hp c rfl
    · cases fuel with
      | zero =>
        rw [snapKids_nil_f _ (fun c prev => send_subvol_snap_zero svs c (some prev))]
        exact SoundFrom.nil _
      | succ g =>
        refine snapKids_sound _ ?_ ?_ _ sv _ (by simp)
        · intro c prev prior' hprev
          exact ih c (some prev) prior' (fun p hpe => by cases hpe; exact hprev)
        · intro c prev
          rw [send_subvol_snap_succ]
          simp

/-! ### The `chronological` strategy is sound -/

/-- Number of working-set members with `ogen` above `x`'s: recursion
measure of the downward (children-first) traversals. -/
def upBound (svs : List Subvol) (x : Subvol) : Nat :=
  (svs.filter (fun s => decide (x.ogen < s.ogen))).length

theorem upBound_child_lt (svs : List Subvol) (H : OgenMono svs) (sv c : Subvol)
    (hsv : sv ∈ svs) (hc : c ∈ svs) (hcp : c.parent_uuid = some sv.uuid) :
    upBound svs c < upBound svs sv := by
  have hlt : sv.ogen < c.ogen := H c hc sv hsv hcp
  refine filter_length_lt svs _ _ ?_ c hc (by simp [hlt]) (by simp)
  intro a _ ha
  simp only [decide_eq_true_eq] at *
  omega

theorem upBound_le_length (svs : List Subvol) (x : Subvol) : upBound svs x ≤ svs.length :=
  le_trans (List.length_filter_le _ _) le_rfl

theorem send_subvol_chrono_zero (svs : List Subvol) (sv : Subvol) (parent : Option Subvol) :
    send_subvol_chrono svs 0 sv parent = [] := rfl

theorem send_subvol_chrono_succ (svs : List Subvol) (fuel : Nat) (sv : Subvol)
    (parent : Option Subvol) :
    send_subvol_chrono svs (fuel+1) sv parent =
      (chronoKids (fun snap prev => send_subvol_chrono svs fuel snap prev)
          (sortBy ogenIdLe (svs.filter (fun x => x.parent_uuid == some sv.uuid))) none) ++
        [{ sv := sv,
           parent := (match parent with
             | none => ((sortBy ogenIdLe (svs.filter
                 (fun x => x.parent_uuid == some sv.uuid))).getLast?, none)
             | some p => (some p, (sortBy ogenIdLe (svs.filter
                 (fun x => x.parent_uuid == some sv.uuid))).getLast?) : Option Subvol × Option Subvol).1,
           clones := (match parent with
             | none => ((sortBy ogenIdLe (svs.filter
                 (fun x => x.parent_uuid == some sv.uuid))).getLast?, none)
             | some p => (some p, (sortBy ogenIdLe (svs.filter
                 (fun x => x.parent_uuid == some sv.uuid))).getLast?) : Option Subvol × Option Subvol).1.toList ++
             (match parent with
             | none => ((sortBy ogenIdLe (svs.filter
                 (fun x => x.parent_uuid == some sv.uuid))).getLast?, none)
             | some p => (some p, (sortBy ogenIdLe (svs.filter
                 (fun x => x.parent_uuid == some sv.uuid))).getLast?) : Option Subvol × Option Subvol).2.toList }] := rfl

theorem chrono_emits_self (svs : List Subvol) (fuel : Nat) (sv : Subvol)
    (parent : Option Subvol) (h : 0 < fuel) :
    sv ∈ (send_subvol_chrono svs fuel sv parent).map Send.sv := by
  obtain ⟨g, rfl⟩ : ∃ g, fuel = g + 1 := ⟨fuel - 1, by omega⟩
  rw [send_subvol_chrono_succ]
  simp

theorem chronoKids_sound (f : Subvol → Option Subvol → List Send) (Pc : Subvol → Prop)
    (hf : ∀ c par prior', Pc c → (∀ p, par = some p → p ∈ prior') → SoundFrom prior' (f c par))
    (hemit : ∀ c par, Pc c → c ∈ (f c par).map Send.sv) :
    ∀ (snaps : List Subvol) (prev : Option Subvol) (prior : List Subvol),
      (∀ c ∈ snaps, Pc c) →
      (∀ p, prev = some p → p ∈ prior) →
      SoundFrom prior (chronoKids f snaps prev) ∧
      (∀ c ∈ snaps, c ∈ prior ++ (chronoKids f snaps prev).map Send.sv) := by
  intro snaps
  induction snaps with
  | nil =>
    intro prev prior _ _
    exact ⟨SoundFrom.nil prior, by simp⟩
  | cons snap rest ih =>
    intro prev prior hPc hprev
    have hA := hf snap prev prior (hPc snap (List.mem_cons_self _ _)) hprev
    have hsnapmem : snap ∈ prior ++ (f snap prev).map Send.sv :=
      List.mem_append_right _ (hemit snap prev (hPc snap (List.mem_cons_self _ _)))
    obtain ⟨hB, hmemB⟩ := ih (some snap) (prior ++ (f snap prev).map Send.sv)
      (fun c hc => hPc c (List.mem_cons_of_mem _ hc))
      (fun p hpe => by cases hpe; exact hsnapmem)
    constructor
    · exact SoundFrom.append hA hB
    · intro c hc
      show c ∈ prior ++ (chronoKids f (snap :: rest) prev).map Send.sv
      have hshape : chronoKids f (snap :: rest) prev = f snap prev ++ chronoKids f rest (some snap) := rfl
      rw [hshape, List.map_append, ← List.append_assoc]
      rcases List.mem_cons.mp hc with rfl | hc
      · exact List.mem_append_left _ hsnapmem
      · exact hmemB c hc

theorem getLast?_mem : ∀ (l : List α) (a : α), l.getLast? = some a → a ∈ l := by
  intro l
  induction l with
  | nil => intro a h; cases h
  | cons x xs ih =>
    intro a h
    cases xs with
    | nil =>
      simp only [List.getLast?_singleton, Option.some.injEq] at h
      subst h
      exact List.mem_singleton_self _
    | cons y ys =>
      rw [List.getLast?_cons_cons] at h
      exact List.mem_cons_of_mem _ (ih a h)

theorem send_subvol_chrono_sound (svs : List Subvol) (H : OgenMono svs) :
    ∀ (fuel : Nat) (sv : Subvol) (parent : Option Subvol) (prior : List Subvol),
      sv ∈ svs → upBound svs sv < fuel →
      (∀ p, parent = some p → p ∈ prior) →
      SoundFrom prior (send_subvol_chrono svs fuel sv parent) := by
  intro fuel
  induction fuel with
  | zero =>
    intro sv parent prior _ h
    omega
  | succ fuel ih =>
    intro sv parent prior hsv hub hp
    have hsnaps : ∀ c ∈ sortBy ogenIdLe (svs.filter (fun x => x.parent_uuid == some sv.uuid)),
        c ∈ svs ∧ c.parent_uuid = some sv.uuid := by
      intro c hc
      have hcf := (mem_sortBy _ _ _).mp hc
      obtain ⟨hcm, hcp⟩ := List.mem_filter.mp hcf
      exact ⟨hcm, by simpa using hcp⟩
    have hchild : ∀ c, c ∈ svs → c.parent_uuid = some sv.uuid → upBound svs c < fuel := by
      intro c hcm hcp
      have h1 := upBound_child_lt svs H sv c hsv hcm hcp
      omega
    obtain ⟨hkids, hmem⟩ := chronoKids_sound
      (fun snap prev => send_subvol_chrono svs fuel snap prev)
      (fun c => c ∈ svs ∧ c.parent_uuid = some sv.uuid)
      (fun c par prior' hPc hpar => ih c par prior' hPc.1 (hchild c hPc.1 hPc.2) hpar)
      (fun c par hPc => chrono_emits_self svs fuel c par (by
        have := hchild c hPc.1 hPc.2
        omega))
      (sortBy ogenIdLe (svs.filter (fun x => x.parent_uuid == some sv.uuid))) none prior
      hsnaps (by simp)
    rw [send_subvol_chrono_succ]
    refine SoundFrom.append hkids ?_
    have hlast : ∀ q, (sortBy ogenIdLe (svs.filter
        (fun x => x.parent_uuid == some sv.uuid))).getLast? = some q →
        q ∈ prior ++ (chronoKids (fun snap prev => send_subvol_chrono svs fuel snap prev)
          (sortBy ogenIdLe (svs.filter (fun x => x.parent_uuid == some sv.uuid))) none).map Send.sv := by
      intro q hq
      exact hmem q (getLast?_mem _ q hq)
    cases parent with
    | none =>
      refine SoundFrom.cons _ _ _ ?_ ?_ (SoundFrom.nil _)
      · intro p hps
        exact hlast p hps
      · intro c hcs
        simp only [Option.toList_none, List.append_nil] at hcs
        cases hlo : (sortBy ogenIdLe (svs.filter
            (fun x => x.parent_uuid == some sv.uuid))).getLast? with
        | none => rw [hlo] at hcs; cases hcs
        | some q =>
          rw [hlo] at hcs
          rcases List.mem_singleton.mp hcs with rfl
          exact hlast c hlo
    | some p =>
      refine SoundFrom.cons _ _ _ ?_ ?_ (SoundFrom.nil _)
      · intro p' hps
        cases hps
        exact List.mem_append_left _ (hp p rfl)
      · intro c hcs
        simp only [Option.toList_some] at hcs
        rcases List.mem_append.mp hcs with h1 | h1
        · rcases List.mem_singleton.mp h1 with rfl
          exact List.mem_append_left _ (hp c rfl)
        · cases hlo : (sortBy ogenIdLe (svs.filter
              (fun x => x.parent_uuid == some sv.uuid))).getLast? with
          | none => rw [hlo] at h1; cases h1
          | some q =>
            rw [hlo] at h1
            rcases List.mem_singleton.mp h1 with rfl
            exact hlast c hlo

/-! ### The top-level traversal and the `generation` strategy -/

theorem flatMap_sound (g : Subvol → List Send) (Pr : Subvol → Prop)
    (hg : ∀ sv prior, Pr sv → SoundFrom prior (g sv)) :
    ∀ (roots : List Subvol), (∀ r ∈ roots, Pr r) →
      ∀ prior, SoundFrom prior (roots.flatMap g) := by
  intro roots
  induction roots with
  | nil => intro _ prior; exact SoundFrom.nil prior
  | cons r rest ih =>
    intro hPr prior
    show SoundFrom prior (g r ++ rest.flatMap g)
    refine SoundFrom.append (hg r prior (hPr r (List.mem_cons_self _ _))) ?_
    exact ih (fun x hx => hPr x (List.mem_cons_of_mem _ hx)) _

theorem send_subvols_snap_sound (strat : Strategy) (svs : List Subvol) (H : OgenMono svs) :
    SoundFrom [] (send_subvols_snap strat svs) := by
  unfold send_subvols_snap
  refine flatMap_sound _ (fun r => r ∈ svs) ?_ (svs.filter rootFilter)
    (fun r hr => (List.mem_filter.mp hr).1) []
  intro sv prior hsv
  cases strat with
  | snapshot => exact send_subvol_snap_sound svs (svs.length + 1) sv none prior (by simp)
  | chronological =>
    refine send_subvol_chrono_sound svs H (svs.length + 1) sv none prior hsv ?_ (by simp)
    have := upBound_le_length svs sv
    omega
  | parent => exact SoundFrom.nil prior
  | generation => exact SoundFrom.nil prior

theorem genGo_sound (g : Subvol → List Subvol) :
    ∀ (rest done prior : List Subvol), (∀ d ∈ done, d ∈ prior) →
      SoundFrom prior (genGo g done rest) := by
  intro rest
  induction rest with
  | nil => intro done prior _; exact SoundFrom.nil prior
  | cons sv rest ih =>
    intro done prior hdp
    show SoundFrom prior (send_subvol_gen g sv done :: genGo g (sv :: done) rest)
    have hspec := select_best_ancestor_spec g sv done
    refine SoundFrom.cons prior _ _ ?_ ?_ ?_
    · intro p hps
      exact hdp p (hspec.1 p hps).1
    · intro c hcs
      exact hdp c (hspec.2 c hcs)
    · refine ih (sv :: done) (prior ++ [sv]) ?_
      intro d hd
      rcases List.mem_cons.mp hd with rfl | hd
      · exact List.mem_append_right _ (List.mem_singleton_self _)
      · exact List.mem_append_left _ (hdp d hd)

theorem send_subvols_gen_sound (svs : List Subvol) :
    SoundFrom [] (send_subvols_gen svs) := by
  unfold send_subvols_gen
  exact genGo_sound _ _ [] [] (by simp)

/-- C4.  For every strategy and every emitted send `(sv, parent,
clones)`, the parent (if any) and every clone source occur strictly
earlier than `sv` in the emitted send order, under the precondition
that every snapshot's `ogen` strictly exceeds its origin's. -/
theorem c4_topological_soundness (strat : Strategy) (svs : List Subvol) (H : OgenMono svs) :
    ∀ l₁ s l₂, plan strat svs = l₁ ++ s :: l₂ →
      (∀ p, s.parent = some p → p ∈ l₁.map Send.sv) ∧
      (∀ c ∈ s.clones, c ∈ l₁.map Send.sv) := by
  have hsound : SoundFrom [] (plan strat svs) := by
    cases strat with
    | parent => exact send_subvols_parent_sound svs H
    | snapshot => exact send_subvols_snap_sound .snapshot svs H
    | chronological => exact send_subvols_snap_sound .chronological svs H
    | generation => exact send_subvols_gen_sound svs
  intro l₁ s l₂ heq
  have h := hsound.split l₁ s l₂ heq
  constructor
  · intro p hps
    simpa using h.1 p hps
  · intro c hcs
    simpa using h.2 c hcs

theorem c4_witness :
    OgenMono s2 ∧
    (∀ l₁ s l₂, plan .snapshot s2 = l₁ ++ s :: l₂ →
      (∀ p, s.parent = some p → p ∈ l₁.map Send.sv) ∧
      (∀ c ∈ s.clones, c ∈ l₁.map Send.sv)) :=
  ⟨by decide, c4_topological_soundness .snapshot s2 (by decide)⟩

/-! ## C8: a `-p` parent is always also a `-c` clone source -/

theorem head?_mem (l : List α) (a : α) (h : l.head? = some a) : a ∈ l := by
  cases l with
  | nil => cases h
  | cons x xs =>
    cases h
    exact List.mem_cons_self _ _

theorem snapKids_all (f : Subvol → Subvol → List Send) (Φ : Send → Prop)
    (hf : ∀ c prev, ∀ s ∈ f c prev, Φ s) :
    ∀ (snaps : List Subvol) (prev : Subvol), ∀ s ∈ snapKids f snaps prev, Φ s := by
  intro snaps
  induction snaps with
  | nil => intro prev s hs; cases hs
  | cons snap rest ih =>
    intro prev s hs
    have hs' : s ∈ f snap prev ++ snapKids f rest snap := hs
    rcases List.mem_append.mp hs' with h | h
    · exact hf snap prev s h
    · exact ih snap s h

theorem chronoKids_all (f : Subvol → Option Subvol → List Send) (Φ : Send → Prop)
    (hf : ∀ c par, ∀ s ∈ f c par, Φ s) :
    ∀ (snaps : List Subvol) (prev : Option Subvol), ∀ s ∈ chronoKids f snaps prev, Φ s := by
  intro snaps
  induction snaps with
  | nil => intro prev s hs; cases hs
  | cons snap rest ih =>
    intro prev s hs
    have hs' : s ∈ f snap prev ++ chronoKids f rest (some snap) := hs
    rcases List.mem_append.mp hs' with h | h
    · exact hf snap prev s h
    · exact ih (some snap) s h

/-- Every send of the snapshot traversal has exactly its parent as clone
source. -/
theorem snap_clones_shape (svs : List Subvol) :
    ∀ (fuel : Nat) (sv : Subvol) (parent : Option Subvol),
      ∀ s ∈ send_subvol_snap svs fuel sv parent, s.clones = s.parent.toList := by
  intro fuel
  induction fuel with
  | zero =>
    intro sv parent s hs
    rw [send_subvol_snap_zero] at hs
    cases hs
  | succ fuel ih =>
    intro sv parent s hs
    rw [send_subvol_snap_succ] at hs
    rcases List.mem_cons.mp hs with rfl | hs
    · rfl
    · exact snapKids_all _ _ (fun c prev s' hs' => ih c (some prev) s' hs') _ sv s hs

/-- Every send of the chronological traversal has clones = parent (as a
clone) plus possibly one extra `prev` clone. -/
theorem chrono_clones_shape (svs : List Subvol) :
    ∀ (fuel : Nat) (sv : Subvol) (parent : Option Subvol),
      ∀ s ∈ send_subvol_chrono svs fuel sv parent,
        ∃ q : Option Subvol, s.clones = s.parent.toList ++ q.toList := by
  intro fuel
  induction fuel with
  | zero =>
    intro sv parent s hs
    rw [send_subvol_chrono_zero] at hs
    cases hs
  | succ fuel ih =>
    intro sv parent s hs
    rw [send_subvol_chrono_succ] at hs
    rcases List.mem_append.mp hs with h | h
    · exact chronoKids_all _ _ (fun c par s' hs' => ih c par s' hs') _ none s h
    · rcases List.mem_singleton.mp h with rfl
      exact ⟨_, rfl⟩

theorem genGo_all (g : Subvol → List Subvol) (Φ : Send → Prop)
    (hf : ∀ sv done, Φ (send_subvol_gen g sv done)) :
    ∀ (rest done : List Subvol), ∀ s ∈ genGo g done rest, Φ s := by
  intro rest
  induction rest with
  | nil => intro done s hs; cases hs
  | cons sv rest ih =>
    intro done s hs
    have hs' : s ∈ send_subvol_gen g sv done :: genGo g (sv :: done) rest := hs
    rcases List.mem_cons.mp hs' with rfl | hs'
    · exact hf sv done
    · exact ih (sv :: done) s hs'

/-- C8.  In every strategy, whenever a send carries a `-p` parent flag,
the same subvolume is also passed as a `-c` clone source of that
send. -/
theorem c8_parent_is_clone (strat : Strategy) (svs : List Subvol) :
    ∀ s ∈ plan strat svs, ∀ p, s.parent = some p → p ∈ s.clones := by
  intro s hs p hps
  cases strat with
  | parent =>
    simp only [plan, send_subvols_parent] at hs
    obtain ⟨sv, _, rfl⟩ := List.mem_map.mp hs
    exact head?_mem _ p hps
  | snapshot =>
    simp only [plan, send_subvols_snap] at hs
    obtain ⟨r, _, hsm⟩ := List.mem_flatMap.mp hs
    have hshape := snap_clones_shape svs (svs.length + 1) r none s hsm
    rw [hshape, hps]
    exact List.mem_singleton_self p
  | chronological =>
    simp only [plan, send_subvols_snap] at hs
    obtain ⟨r, _, hsm⟩ := List.mem_flatMap.mp hs
    obtain ⟨q, hshape⟩ := chrono_clones_shape svs (svs.length + 1) r none s hsm
    rw [hshape, hps]
    exact List.mem_append_left _ (List.mem_singleton_self p)
  | generation =>
    simp only [plan, send_subvols_gen] at hs
    refine genGo_all _ (fun s => ∀ p, s.parent = some p → p ∈ s.clones) ?_ _ [] s hs p hps
    intro sv done p' hps'
    have hspec := select_best_ancestor_spec
      (fun sv => parentsChain (mkLookup (sortBy genIdLe svs)) (sortBy genIdLe svs).length sv)
      sv done
    exact (hspec.1 p' hps').2

theorem c8_witness :
    ((⟨svZ, some svR, [svR]⟩ : Send) ∈ plan .snapshot s2 ∧
     (⟨svZ, some svR, [svR]⟩ : Send).parent = some svR) ∧
    svR ∈ (⟨svZ, some svR, [svR]⟩ : Send).clones :=
  ⟨⟨by decide, by decide⟩,
   c8_parent_is_clone .snapshot s2 ⟨svZ, some svR, [svR]⟩ (by decide) svR (by decide)⟩

/-! ## C9: no send references the sent subvolume itself -/

/-- The per-send property of C9. -/
def NoSelf (s : Send) : Prop :=
  (∀ p, s.parent = some p → p ≠ s.sv) ∧ s.sv ∉ s.clones

theorem uuidNodup_nodup (svs : List Subvol) (HU : UuidNodup svs) : svs.Nodup :=
  List.Nodup.of_map Subvol.uuid HU

theorem no_self_loop (svs : List Subvol) (H : OgenMono svs) (sv : Subvol) (hsv : sv ∈ svs) :
    sv.parent_uuid ≠ some sv.uuid := by
  intro heq
  exact lt_irrefl _ (H sv hsv sv hsv heq)

/-- A node is never among its own lineage children. -/
theorem self_notin_snaps (svs : List Subvol) (H : OgenMono svs) (sv : Subvol) (hsv : sv ∈ svs) :
    sv ∉ sortBy ogenIdLe (svs.filter (fun x => x.parent_uuid == some sv.uuid)) ∧
    sv ∉ sortBy ogenIdGe (svs.filter (fun x => x.parent_uuid == some sv.uuid)) := by
  constructor <;>
  · intro hmem
    have hf := (mem_sortBy _ _ _).mp hmem
    have hp := (List.mem_filter.mp hf).2
    exact no_self_loop svs H sv hsv (by simpa using hp)

theorem snaps_asc_nodup (svs : List Subvol) (HU : UuidNodup svs) (sv : Subvol) :
    (sortBy ogenIdLe (svs.filter (fun x => x.parent_uuid == some sv.uuid))).Nodup :=
  ((sortBy_perm _ _).nodup_iff).mpr ((uuidNodup_nodup svs HU).filter _)

theorem snaps_desc_nodup (svs : List Subvol) (HU : UuidNodup svs) (sv : Subvol) :
    (sortBy ogenIdGe (svs.filter (fun x => x.parent_uuid == some sv.uuid))).Nodup :=
  ((sortBy_perm _ _).nodup_iff).mpr ((uuidNodup_nodup svs HU).filter _)

theorem snapKids_threaded (f : Subvol → Subvol → List Send) (Φ : Send → Prop)
    (P : Subvol → Prop)
    (hf : ∀ c prev, P c → c ≠ prev → ∀ s ∈ f c prev, Φ s) :
    ∀ (snaps : List Subvol) (prev : Subvol), (∀ c ∈ snaps, P c) →
      prev ∉ snaps → snaps.Nodup →
      ∀ s ∈ snapKids f snaps prev, Φ s := by
  intro snaps
  induction snaps with
  | nil => intro prev _ _ _ s hs; cases hs
  | cons snap rest ih =>
    intro prev hP hprev hnd s hs
    have hs' : s ∈ f snap prev ++ snapKids f rest snap := hs
    rcases List.mem_append.mp hs' with h | h
    · refine hf snap prev (hP snap (List.mem_cons_self _ _)) ?_ s h
      intro heq
      exact hprev (heq ▸ List.mem_cons_self _ _)
    · have hnd' := List.nodup_cons.mp hnd
      exact ih snap (fun c hc => hP c (List.mem_cons_of_mem _ hc)) hnd'.1 hnd'.2 s h

theorem chronoKids_threaded (f : Subvol → Option Subvol → List Send) (Φ : Send → Prop)
    (P : Subvol → Prop)
    (hf : ∀ c par, P c → (∀ p, par = some p → p ≠ c) → ∀ s ∈ f c par, Φ s) :
    ∀ (snaps : List Subvol) (prev : Option Subvol), (∀ c ∈ snaps, P c) →
      (∀ p, prev = some p → p ∉ snaps) → snaps.Nodup →
      ∀ s ∈ chronoKids f snaps prev, Φ s := by
  intro snaps
  induction snaps with
  | nil => intro prev _ _ _ s hs; cases hs
  | cons snap rest ih =>
    intro prev hP hprev hnd s hs
    have hs' : s ∈ f snap prev ++ chronoKids f rest (some snap) := hs
    rcases List.mem_append.mp hs' with h | h
    · refine hf snap prev (hP snap (List.mem_cons_self _ _)) ?_ s h
      intro p hpe heq
      exact hprev p hpe (heq ▸ List.mem_cons_self _ _)
    · have hnd' := List.nodup_cons.mp hnd
      refine ih (some snap) (fun c hc => hP c (List.mem_cons_of_mem _ hc)) ?_ hnd'.2 s h
      intro p hpe
      cases hpe
      exact hnd'.1

theorem snap_no_self (svs : List Subvol) (H : OgenMono svs) (HU : UuidNodup svs) :
    ∀ (fuel : Nat) (sv : Subvol) (parent : Option Subvol), sv ∈ svs →
      (∀ p, parent = some p → p ≠ sv) →
      ∀ s ∈ send_subvol_snap svs fuel sv parent, NoSelf s := by
  intro fuel
  induction fuel with
  | zero =>
    intro sv parent _ _ s hs
    rw [send_subvol_snap_zero] at hs
    cases hs
  | succ fuel ih =>
    intro sv parent hsv hpar s hs
    rw [send_subvol_snap_succ] at hs
    rcases List.mem_cons.mp hs with rfl | hs
    · constructor
      · exact hpar
      · intro hmem
        cases parent with
        | none => cases hmem
        | some p =>
          have heq := List.mem_singleton.mp hmem
          exact hpar p rfl heq.symm
    · refine snapKids_threaded _ NoSelf (fun c => c ∈ svs) ?_ _ sv ?_
        (self_notin_snaps svs H sv hsv).2 (snaps_desc_nodup svs HU sv) s hs
      · intro c prev hcm hne s' hs'
        exact ih c (some prev) hcm (fun p hpe => by cases hpe; exact hne.symm) s' hs'
      · intro c hc
        exact (List.mem_filter.mp ((mem_sortBy _ _ _).mp hc)).1

theorem chrono_no_self (svs : List Subvol) (H : OgenMono svs) (HU : UuidNodup svs) :
    ∀ (fuel : Nat) (sv : Subvol) (parent : Option Subvol), sv ∈ svs →
      (∀ p, parent = some p → p ≠ sv) →
      ∀ s ∈ send_subvol_chrono svs fuel sv parent, NoSelf s := by
  intro fuel
  induction fuel with
  | zero =>
    intro sv parent _ _ s hs
    rw [send_subvol_chrono_zero] at hs
    cases hs
  | succ fuel ih =>
    intro sv parent hsv hpar s hs
    rw [send_subvol_chrono_succ] at hs
    rcases List.mem_append.mp hs with h | h
    · refine chronoKids_threaded _ NoSelf (fun c => c ∈ svs) ?_ _ none ?_ (by simp)
        (snaps_asc_nodup svs HU sv) s h
      · intro c par hcm hne s' hs'
        exact ih c par hcm hne s' hs'
      · intro c hc
        exact (List.mem_filter.mp ((mem_sortBy _ _ _).mp hc)).1
    · rcases List.mem_singleton.mp h with rfl
      have hlastne : ∀ q, (sortBy ogenIdLe (svs.filter
          (fun x => x.parent_uuid == some sv.uuid))).getLast? = some q → q ≠ sv := by
        intro q hq heq
        subst heq
        exact (self_notin_snaps svs H q hsv).1 (getLast?_mem _ q hq)
      cases parent with
      | none =>
        constructor
        · intro p hps
          exact hlastne p hps
        · intro hmem
          simp only [Option.toList_none, List.append_nil] at hmem
          cases hlo : (sortBy ogenIdLe (svs.filter
              (fun x => x.parent_uuid == some sv.uuid))).getLast? with
          | none => rw [hlo] at hmem; cases hmem
          | some q =>
            rw [hlo] at hmem
            rcases List.mem_singleton.mp hmem with rfl
            exact hlastne sv hlo rfl
      | some p =>
        constructor
        · intro p' hps
          cases hps
          exact hpar p rfl
        · intro hmem
          simp only [Option.toList_some] at hmem
          rcases List.mem_append.mp hmem with h1 | h1
          · rcases List.mem_singleton.mp h1 with rfl
            exact hpar sv rfl rfl
          · cases hlo : (sortBy ogenIdLe (svs.filter
                (fun x => x.parent_uuid == some sv.uuid))).getLast? with
            | none => rw [hlo] at h1; cases h1
            | some q =>
              rw [hlo] at h1
              rcases List.mem_singleton.mp h1 with rfl
              exact hlastne sv hlo rfl

theorem genGo_no_self (g : Subvol → List Subvol) :
    ∀ (rest done : List Subvol), rest.Nodup → (∀ d ∈ done, d ∉ rest) →
      ∀ s ∈ genGo g done rest, NoSelf s := by
  intro rest
  induction rest with
  | nil => intro done _ _ s hs; cases hs
  | cons sv rest ih =>
    intro done hnd hdisj s hs
    have hnd' := List.nodup_cons.mp hnd
    have hsvdone : sv ∉ done := fun hsd => hdisj sv hsd (List.mem_cons_self _ _)
    have hs' : s ∈ send_subvol_gen g sv done :: genGo g (sv :: done) rest := hs
    have hspec := select_best_ancestor_spec g sv done
    rcases List.mem_cons.mp hs' with rfl | hs'
    · constructor
      · intro p hps heq
        subst heq
        exact hsvdone (hspec.1 p hps).1
      · intro hmem
        exact hsvdone (hspec.2 _ hmem)
    · refine ih (sv :: done) hnd'.2 ?_ s hs'
      intro d hd
      rcases List.mem_cons.mp hd with rfl | hd
      · exact hnd'.1
      · exact fun hmem => hdisj d hd (List.mem_cons_of_mem _ hmem)

/-- C9.  Under the acyclicity invariant (`ogen` strictly increases along
lineage edges) and uuid uniqueness, no strategy ever chooses a
subvolume as its own send parent or includes it in its own clone-source
set. -/
theorem c9_no_self_reference (strat : Strategy) (svs : List Subvol)
    (H : OgenMono svs) (HU : UuidNodup svs) :
    ∀ s ∈ plan strat svs, (∀ p, s.parent = some p → p ≠ s.sv) ∧ s.sv ∉ s.clones := by
  intro s hs
  cases strat with
  | parent =>
    simp only [plan, send_subvols_parent] at hs
    obtain ⟨sv, hsv, rfl⟩ := List.mem_map.mp hs
    have hperm := sortBy_perm ogenIdLe svs
    have Hs : OgenMono (sortBy ogenIdLe svs) := fun a ha b hb hab =>
      H a (hperm.mem_iff.mp ha) b (hperm.mem_iff.mp hb) hab
    have hchain := parentsChain_mem_lt _ Hs (sortBy ogenIdLe svs).length sv hsv
    constructor
    · intro p hps heq
      subst heq
      exact lt_irrefl _ (hchain p (head?_mem _ p hps)).2
    · intro hmem
      exact lt_irrefl _ (hchain _ hmem).2
  | snapshot =>
    simp only [plan, send_subvols_snap] at hs
    obtain ⟨r, hr, hsm⟩ := List.mem_flatMap.mp hs
    exact snap_no_self svs H HU (svs.length + 1) r none
      ((List.mem_filter.mp hr).1) (by simp) s hsm
  | chronological =>
    simp only [plan, send_subvols_snap] at hs
    obtain ⟨r, hr, hsm⟩ := List.mem_flatMap.mp hs
    exact chrono_no_self svs H HU (svs.length + 1) r none
      ((List.mem_filter.mp hr).1) (by simp) s hsm
  | generation =>
    simp only [plan, send_subvols_gen] at hs
    refine genGo_no_self _ _ [] ?_ (by simp) s hs
    exact ((sortBy_perm _ _).nodup_iff).mpr (uuidNodup_nodup svs HU)

theorem c9_witness :
    (OgenMono s2 ∧ UuidNodup s2) ∧
    (∀ s ∈ plan .snapshot s2, (∀ p, s.parent = some p → p ≠ s.sv) ∧ s.sv ∉ s.clones) :=
  ⟨⟨by decide, by decide⟩, c9_no_self_reference .snapshot s2 (by decide) (by decide)⟩

end BtrfsClone
